import Mathlib

/-!
# Verification of the CNOT-dihedral group engine
A shallow embedding of
`qiskit/ignis/verification/randomized_benchmarking/dihedral.py`.

Python integers are modelled by `Int` (all stored coefficients are kept
non-negative by the code's `% 8` / `% 2` reductions, which match `Int.emod`
since Python's `%` is floored and the moduli are positive).  Python lists
are `List Int`, term index lists are `List Nat` (the code asserts the
indices are non-negative).  `int(x / d)` on an exact non-negative quotient
is `Int.tdiv`.
-/

namespace Dihedral

/-- Number of quadratic terms, `int(n_vars * (n_vars-1) / 2)` from
`SpecialPolynomial.__init__`. -/
def nc2 (n : Nat) : Nat := n * (n - 1) / 2

/-- Number of cubic terms, `int(n_vars * (n_vars-1) * (n_vars-2) / 6)` from
`SpecialPolynomial.__init__`. -/
def nc3 (n : Nat) : Nat := n * (n - 1) * (n - 2) / 6

/-- `SpecialPolynomial`: max degree 3, `n_vars` Z2 variables, coefficients
in Z8, stored in flat per-degree arrays. -/
structure SpecialPolynomial where
  n_vars : Nat
  weight_0 : Int
  weight_1 : List Int
  weight_2 : List Int
  weight_3 : List Int
deriving DecidableEq

/-- `SpecialPolynomial.__init__`: the zero polynomial on `n` variables. -/
def zeroPoly (n : Nat) : SpecialPolynomial :=
  ⟨n, 0, List.replicate n 0, List.replicate (nc2 n) 0, List.replicate (nc3 n) 0⟩

/-- The adjacent-pairs check
`False not in [indices[i] < indices[i+1] for i in range(length-1)]`. -/
def incrAdj : List Nat → Bool
  | a :: b :: rest => a < b && incrAdj (b :: rest)
  | _ => true

/-- The index-list validity checked by the asserts of `get_term` /
`set_term` / `mul_monomial`: length `< 4`, in bounds, strictly increasing
(adjacent comparisons `indices[i] < indices[i+1]`). -/
def validIndices (n : Nat) (L : List Nat) : Prop :=
  L.length < 4 ∧ (∀ x ∈ L, x < n) ∧ incrAdj L = true

instance (n : Nat) (L : List Nat) : Decidable (validIndices n L) :=
  inferInstanceAs (Decidable (L.length < 4 ∧ (∀ x ∈ L, x < n) ∧ incrAdj L = true))

/-- Degree-2 offset, from `get_term`:
`offset_1 = int(i*n_vars - ((i+1)*i)/2)`, `offset_2 = int(j - i - 1)`;
the quotient `(i+1)*i/2` is exact. -/
def off2 (n i j : Nat) : Nat := (i * n - (i + 1) * i / 2) + (j - i - 1)

/-- First summand of the degree-3 offset, from `get_term`:
`int(i * (2 + i**2 - 3*i*(n-1) - 6*n + 3*n**2)/6)` (exact quotient,
computed over `Int` because intermediate values go negative over `Nat`). -/
def off3a (n i : Nat) : Nat :=
  (Int.tdiv ((i : Int) * (2 + (i : Int) ^ 2 - 3 * (i : Int) * ((n : Int) - 1)
      - 6 * (n : Int) + 3 * (n : Int) ^ 2)) 6).toNat

/-- Second summand of the degree-3 offset, from `get_term`:
`int((j - i - 1) * (2*n_vars - j + i - 2)/2)`. -/
def off3b (n i j : Nat) : Nat :=
  (Int.tdiv (((j : Int) - (i : Int) - 1) *
      (2 * (n : Int) - (j : Int) + (i : Int) - 2)) 2).toNat

/-- Degree-3 offset `offset_1 + offset_2 + offset_3` from `get_term`. -/
def off3 (n i j k : Nat) : Nat := off3a n i + off3b n i j + (k - j - 1)

/-- `SpecialPolynomial.get_term` on its non-failing executions (the
asserts become hypotheses of the theorems; where the source would abort,
this total version reads a default `0` — `getTermE` is the failure-aware
model, and `getTermE_some` ties the two together). -/
def getTerm (p : SpecialPolynomial) (L : List Nat) : Int :=
  match p with
  | ⟨n, w0, w1, w2, w3⟩ =>
    match L with
    | [] => w0
    | [a] => w1.getD a 0
    | [a, b] => w2.getD (off2 n a b) 0
    | [a, b, c] => w3.getD (off3 n a b c) 0
    | _ => 0

/-- `SpecialPolynomial.set_term` on its non-failing executions: the value
is reduced modulo 8 on write (where the source would abort, this total
version is a no-op — `setTermE` is the failure-aware model). -/
def setTerm (p : SpecialPolynomial) (L : List Nat) (v : Int) : SpecialPolynomial :=
  match p with
  | ⟨n, w0, w1, w2, w3⟩ =>
    let value := Int.emod v 8
    match L with
    | [] => ⟨n, value, w1, w2, w3⟩
    | [a] => ⟨n, w0, w1.set a value, w2, w3⟩
    | [a, b] => ⟨n, w0, w1, w2.set (off2 n a b) value, w3⟩
    | [a, b, c] => ⟨n, w0, w1, w2, w3.set (off3 n a b c) value⟩
    | _ => ⟨n, w0, w1, w2, w3⟩

/-- `SpecialPolynomial.get_term`, failure included: `none` when one of the
three entry asserts (`length < 4`, indices in bounds, indices strictly
increasing) fires — Python's `AssertionError` — or when the computed flat
offset falls outside the coefficient array — Python's `IndexError`.
`getTerm` is the value on the non-failing executions. -/
def getTermE (p : SpecialPolynomial) (L : List Nat) : Option Int :=
  if validIndices p.n_vars L then
    match p, L with
    | ⟨_, w0, _, _, _⟩, [] => some w0
    | ⟨_, _, w1, _, _⟩, [a] => w1[a]?
    | ⟨n, _, _, w2, _⟩, [a, b] => w2[off2 n a b]?
    | ⟨n, _, _, _, w3⟩, [a, b, c] => w3[off3 n a b c]?
    | _, _ => none
  else none

/-- `SpecialPolynomial.set_term`, failure included: `none` on a violated
entry assert or an out-of-range offset write (`IndexError`); `setTerm` is
the result on the non-failing executions. -/
def setTermE (p : SpecialPolynomial) (L : List Nat) (v : Int) : Option SpecialPolynomial :=
  if validIndices p.n_vars L then
    let value := Int.emod v 8
    match p, L with
    | ⟨n, _, w1, w2, w3⟩, [] => some ⟨n, value, w1, w2, w3⟩
    | ⟨n, w0, w1, w2, w3⟩, [a] =>
      if a < w1.length then some ⟨n, w0, w1.set a value, w2, w3⟩ else none
    | ⟨n, w0, w1, w2, w3⟩, [a, b] =>
      if off2 n a b < w2.length then some ⟨n, w0, w1, w2.set (off2 n a b) value, w3⟩ else none
    | ⟨n, w0, w1, w2, w3⟩, [a, b, c] =>
      if off3 n a b c < w3.length then some ⟨n, w0, w1, w2, w3.set (off3 n a b c) value⟩
      else none
    | _, _ => none
  else none

/-- Shape well-formedness of a polynomial: the flat arrays have the lengths
fixed by `__init__`. -/
def PolyWF (p : SpecialPolynomial) : Prop :=
  p.weight_1.length = p.n_vars ∧ p.weight_2.length = nc2 p.n_vars ∧
    p.weight_3.length = nc3 p.n_vars

instance (p : SpecialPolynomial) : Decidable (PolyWF p) :=
  inferInstanceAs (Decidable (p.weight_1.length = p.n_vars ∧ p.weight_2.length = nc2 p.n_vars ∧
    p.weight_3.length = nc3 p.n_vars))

/-- `itertools.combinations(l, 2)`: all length-2 subsequences, in order. -/
def combos2 : List Nat → List (List Nat)
  | [] => []
  | a :: rest => rest.map (fun b => [a, b]) ++ combos2 rest

/-- `itertools.combinations(l, 3)`: all length-3 subsequences, in order. -/
def combos3 : List Nat → List (List Nat)
  | [] => []
  | a :: rest => (combos2 rest).map (fun l => a :: l) ++ combos3 rest

/-- Sorted insertion into a sorted list without duplicates; used to model
Python's `sorted` / sorted set unions on small index lists. -/
def insertSorted (x : Nat) : List Nat → List Nat
  | [] => [x]
  | a :: rest =>
    if x < a then x :: a :: rest
    else if x = a then a :: rest
    else a :: insertSorted x rest

/-- `sorted(set(l1).union(set(l2)))`: the union of two index sets as a
strictly increasing list.  (CPython's `list(set(...))` enumerates small
non-negative integer sets in increasing order, which is what
`mul_monomial` relies on when it feeds the union back to `set_term`.) -/
def unionSorted (l1 l2 : List Nat) : List Nat :=
  l2.foldl (fun acc x => insertSorted x acc) (l1.foldl (fun acc x => insertSorted x acc) [])

/-- The term enumeration `terms0 + terms1 + terms2 + terms3` used by
`mul_monomial`, `__mul__` and `evaluate`. -/
def allTerms (n : Nat) : List (List Nat) :=
  [[]] ++ (List.range n).map (fun i => [i])
    ++ (List.range n).flatMap (fun i => (List.range n).filterMap
          (fun j => if i < j then some [i, j] else none))
    ++ (List.range n).flatMap (fun i => (List.range n).flatMap
          (fun j => (List.range n).filterMap
            (fun k => if i < j ∧ j < k then some [i, j, k] else none)))

/-- `SpecialPolynomial.mul_monomial` on its non-failing executions
(`mulMonomialE` is the failure-aware model: on `n_vars >= 4` the term loop
can feed a four-index union to `get_term`, whose assert aborts the whole
call — see `C9_mul_monomial_abort`). -/
def mulMonomial (p : SpecialPolynomial) (indices : List Nat) : SpecialPolynomial :=
  if indices = [] then p
  else
    (allTerms p.n_vars).foldl
      (fun result term =>
        let value := getTerm p term
        let newTerm := unionSorted term indices
        setTerm result newTerm (Int.emod (getTerm result newTerm + value) 8))
      (zeroPoly p.n_vars)

/-- `SpecialPolynomial.mul_monomial`, failure included: the entry asserts
become the `validIndices` guard, and the enumeration loop runs the fallible
`get_term`/`set_term` on the union of each enumerated term with `indices` —
a union of four or more indices makes `get_term`'s `length < 4` assert
raise, so the whole call returns `none`. -/
def mulMonomialE (p : SpecialPolynomial) (indices : List Nat) : Option SpecialPolynomial :=
  if validIndices p.n_vars indices then
    if indices = [] then some p
    else
      (allTerms p.n_vars).foldlM
        (fun result term => do
          let value ← getTermE p term
          let cur ← getTermE result (unionSorted term indices)
          setTermE result (unionSorted term indices) (Int.emod (cur + value) 8))
        (zeroPoly p.n_vars)
  else none

/-- `SpecialPolynomial.__mul__` with an integer: scalar multiplication,
`(x * other) % 8` on every coefficient. -/
def scalarMul (c : Int) (p : SpecialPolynomial) : SpecialPolynomial :=
  ⟨p.n_vars, Int.emod (p.weight_0 * c) 8, p.weight_1.map (fun x => Int.emod (x * c) 8),
    p.weight_2.map (fun x => Int.emod (x * c) 8), p.weight_3.map (fun x => Int.emod (x * c) 8)⟩

/-- `SpecialPolynomial.__add__`: term-wise sum mod 8. -/
def polyAdd (p q : SpecialPolynomial) : SpecialPolynomial :=
  ⟨p.n_vars, Int.emod (p.weight_0 + q.weight_0) 8,
    (p.weight_1.zip q.weight_1).map (fun x => Int.emod (x.1 + x.2) 8),
    (p.weight_2.zip q.weight_2).map (fun x => Int.emod (x.1 + x.2) 8),
    (p.weight_3.zip q.weight_3).map (fun x => Int.emod (x.1 + x.2) 8)⟩

/-- `SpecialPolynomial.__mul__` with a polynomial: sum over the monomials
of `other` of `coefficient * self.mul_monomial(monomial)`. -/
def polyMul (p q : SpecialPolynomial) : SpecialPolynomial :=
  (allTerms p.n_vars).foldl
    (fun result term =>
      let value := getTerm q term
      if value ≠ 0 then polyAdd result (scalarMul value (mulMonomial p term))
      else result)
    (zeroPoly p.n_vars)

/-- `SpecialPolynomial.__mul__` with a polynomial, failure included:
`none` when a `mul_monomial` call on one of `other`'s monomials aborts. -/
def polyMulE (p q : SpecialPolynomial) : Option SpecialPolynomial :=
  if p.n_vars = q.n_vars then
    (allTerms p.n_vars).foldlM
      (fun result term => do
        let value ← getTermE q term
        if value ≠ 0 then
          let temp ← mulMonomialE p term
          pure (polyAdd result (scalarMul value temp))
        else pure result)
      (zeroPoly p.n_vars)
  else none

/-- The polynomial `1` — the `start` value of `evaluate` in the
polynomial-substitution branch. -/
def onePoly (n : Nat) : SpecialPolynomial := { zeroPoly n with weight_0 := 1 }

/-- `SpecialPolynomial.evaluate` on a vector of polynomials:
`sum over nonzero terms of coefficient * product(xval[j] for j in term)`. -/
def evalPoly (p : SpecialPolynomial) (xval : List SpecialPolynomial) : SpecialPolynomial :=
  (allTerms p.n_vars).foldl
    (fun result term =>
      let value := getTerm p term
      if value ≠ 0 then
        let newterm := (term.map (fun j => xval.getD j (zeroPoly p.n_vars))).foldl
          polyMul (onePoly p.n_vars)
        polyAdd result (scalarMul value newterm)
      else result)
    (zeroPoly p.n_vars)

/-- `SpecialPolynomial.evaluate` on a vector of polynomials, failure
included: the entry asserts become the guard, and each nonzero term's
product `reduce(mul, [xval[j] for j in term], start)` runs the fallible
polynomial product. -/
def evalPolyE (p : SpecialPolynomial) (xval : List SpecialPolynomial) :
    Option SpecialPolynomial :=
  if xval.length = p.n_vars ∧ ∀ q ∈ xval, q.n_vars = p.n_vars then
    (allTerms p.n_vars).foldlM
      (fun result term => do
        let value ← getTermE p term
        if value ≠ 0 then
          let newterm ← (term.map (fun j => xval.getD j (zeroPoly p.n_vars))).foldlM
            polyMulE (onePoly p.n_vars)
          pure (polyAdd result (scalarMul value newterm))
        else pure result)
      (zeroPoly p.n_vars)
  else none

/-- `SpecialPolynomial.set_pj`: reset to
`p_J(x) = sum_{a subseteq J, |a| != 0} (-2)^(|a|-1) x^a`:
coefficient 1 on 1-subsets of `J`, 6 on 2-subsets, 4 on 3-subsets. -/
def setPj (n : Nat) (indices : List Nat) : SpecialPolynomial :=
  let sorted := indices.foldl (fun acc x => insertSorted x acc) []
  let p1 := sorted.foldl (fun p j => setTerm p [j] 1) (zeroPoly n)
  let p2 := (combos2 sorted).foldl (fun p j => setTerm p j 6) p1
  (combos3 sorted).foldl (fun p j => setTerm p j 4) p2

/-- `SpecialPolynomial.set_pj`, failure included: the bounds assert becomes
the guard and the `set_term` writes are fallible (for `n_vars >= 6` a cubic
subset of the support can hit an out-of-range offset, an `IndexError`). -/
def setPjE (n : Nat) (indices : List Nat) : Option SpecialPolynomial :=
  if ∀ x ∈ indices, x < n then
    let sorted := indices.foldl (fun acc x => insertSorted x acc) []
    do
      let p1 ← sorted.foldlM (fun p j => setTermE p [j] 1) (zeroPoly n)
      let p2 ← (combos2 sorted).foldlM (fun p j => setTermE p j 6) p1
      (combos3 sorted).foldlM (fun p j => setTermE p j 4) p2
  else none

/-- `CNOTDihedral`: phase polynomial, n x n binary matrix, binary shift. -/
structure CNOTDihedral where
  num_qubits : Nat
  poly : SpecialPolynomial
  linear : List (List Int)
  shift : List Int
deriving DecidableEq

/-- `CNOTDihedral.__init__`: the identity element on `n` qubits. -/
def identityElem (n : Nat) : CNOTDihedral :=
  ⟨n, zeroPoly n,
    (List.range n).map (fun r => (List.range n).map (fun c => if r = c then 1 else 0)),
    List.replicate n 0⟩

/-- `CNOTDihedral._z2matmul`: product of two n x n Z2 matrices, accumulated
entry-wise with `% 2` at every step. -/
def z2matmul (n : Nat) (left right : List (List Int)) : List (List Int) :=
  (List.range n).map (fun i => (List.range n).map (fun j =>
    (List.range n).foldl
      (fun acc k => Int.emod (acc + (left.getD i []).getD k 0 * (right.getD k []).getD j 0) 2)
      0))

/-- `CNOTDihedral._z2matvecmul`: `mat*vec` over Z2. -/
def z2matvecmul (n : Nat) (mat : List (List Int)) (vec : List Int) : List Int :=
  (List.range n).map (fun i =>
    (List.range n).foldl
      (fun acc j => Int.emod (acc + (mat.getD i []).getD j 0 * vec.getD j 0) 2)
      0)

/-- The support `[j for j, e in enumerate(row) if e != 0]` of a matrix row. -/
def supportOf (row : List Int) : List Nat :=
  (List.range row.length).filter (fun j => row.getD j 0 ≠ 0)

/-- The substituted variable built for row `i` inside
`CNOTDihedral.__mul__`: `set_pj` of the support of row `i` of
`other.linear`, negated with constant term incremented when
`other.shift[i] == 1`. -/
def mulSubstVar (other : CNOTDihedral) (i : Nat) : SpecialPolynomial :=
  let support := supportOf (other.linear.getD i [])
  let poly := setPj other.num_qubits support
  if other.shift.getD i 0 = 1 then
    let q := scalarMul (-1) poly
    { q with weight_0 := Int.emod (q.weight_0 + 1) 8 }
  else poly

/-- The substituted variable of `CNOTDihedral.__mul__`, failure included:
`set_pj` of the support of row `i` of `other.linear`, then the shift
adjustment (which cannot fail). -/
def mulSubstVarE (other : CNOTDihedral) (i : Nat) : Option SpecialPolynomial := do
  let poly ← setPjE other.num_qubits (supportOf (other.linear.getD i []))
  if other.shift.getD i 0 = 1 then
    let q := scalarMul (-1) poly
    pure { q with weight_0 := Int.emod (q.weight_0 + 1) 8 }
  else pure poly

/-- `CNOTDihedral.__mul__`: left multiplication `self * other`. -/
def mulCD (self other : CNOTDihedral) : CNOTDihedral :=
  let n := self.num_qubits
  let shift := ((z2matvecmul n self.linear other.shift).zip self.shift).map
    (fun x => Int.emod (x.1 + x.2) 2)
  let linear := z2matmul n self.linear other.linear
  let new_vars := (List.range n).map (mulSubstVar other)
  let poly := polyAdd other.poly (evalPoly self.poly new_vars)
  ⟨n, poly, linear, shift⟩

/-- `CNOTDihedral.__mul__`, failure included: the size assert becomes the
guard; `shift` and `linear` never fail and are assembled in the final
return; the `new_vars` loop and `other.poly + self.poly.evaluate(new_vars)`
run the fallible substitution and evaluation, so the whole product is
`none` exactly when the source raises on that pair. -/
def mulCDE (self other : CNOTDihedral) : Option CNOTDihedral :=
  if self.num_qubits = other.num_qubits then do
    let new_vars ← (List.range self.num_qubits).foldlM
      (fun acc i => do
        let poly ← mulSubstVarE other i
        pure (acc ++ [poly])) []
    let ev ← evalPolyE self.poly new_vars
    pure ⟨self.num_qubits, polyAdd other.poly ev,
      z2matmul self.num_qubits self.linear other.linear,
      ((z2matvecmul self.num_qubits self.linear other.shift).zip self.shift).map
        (fun x => Int.emod (x.1 + x.2) 2)⟩
  else none

/-- The substituted variable built for row `i` inside
`CNOTDihedral.__rmul__`: `set_pj` of the support of row `i` of
`self.linear`, negated with constant term incremented when
`other.shift[i] == 1`. -/
def rmulSubstVar (self other : CNOTDihedral) (i : Nat) : SpecialPolynomial :=
  let support := supportOf (self.linear.getD i [])
  let poly := setPj self.num_qubits support
  if other.shift.getD i 0 = 1 then
    let q := scalarMul (-1) poly
    { q with weight_0 := Int.emod (q.weight_0 + 1) 8 }
  else poly

/-- `CNOTDihedral.__rmul__`: right multiplication `other * self`. -/
def rmulCD (self other : CNOTDihedral) : CNOTDihedral :=
  let n := self.num_qubits
  let shift := ((z2matvecmul n other.linear self.shift).zip other.shift).map
    (fun x => Int.emod (x.1 + x.2) 2)
  let linear := z2matmul n other.linear self.linear
  let new_vars := (List.range n).map (rmulSubstVar self other)
  let poly := polyAdd self.poly (evalPoly other.poly new_vars)
  ⟨n, poly, linear, shift⟩

/-- `CNOTDihedral.cnot`: left multiply by `CNOT_{i,j}`;
`linear[j] := linear[i] + linear[j] mod 2`, `shift[j] := shift[i] + shift[j] mod 2`. -/
def cnot (e : CNOTDihedral) (i j : Nat) : CNOTDihedral :=
  match e with
  | ⟨n, poly, linear, shift⟩ =>
    let newRow := (List.range n).map
      (fun k => Int.emod ((linear.getD i []).getD k 0 + (linear.getD j []).getD k 0) 2)
    ⟨n, poly, linear.set j newRow,
      shift.set j (Int.emod (shift.getD i 0 + shift.getD j 0) 2)⟩

/-- `CNOTDihedral.phase`: left multiply by `T_i^k`.  Conjugates `k` when the
`i`-th bit is flipped, then adds `k * (-2)^(|alpha|-1) mod 8` to the term of
every subset `alpha` of the support of row `i`, of weight up to 3. -/
def phase (e : CNOTDihedral) (k : Int) (i : Nat) : CNOTDihedral :=
  match e with
  | ⟨n, poly, linear, shift⟩ =>
    let k := if shift.getD i 0 = 1 then Int.emod (7 * k) 8 else k
    let support := supportOf (linear.getD i [])
    let p1 := support.foldl
      (fun p j => setTerm p [j] (Int.emod (getTerm p [j] + k) 8)) poly
    let p2 := (combos2 support).foldl
      (fun p j => setTerm p j (Int.emod (getTerm p j + -2 * k) 8)) p1
    let p3 := (combos3 support).foldl
      (fun p j => setTerm p j (Int.emod (getTerm p j + 4 * k) 8)) p2
    ⟨n, p3, linear, shift⟩

/-- `CNOTDihedral.flip`: left multiply by `X_i`;
`shift[i] := (shift[i] + 1) % 2`. -/
def flip (e : CNOTDihedral) (i : Nat) : CNOTDihedral :=
  match e with
  | ⟨n, poly, linear, shift⟩ =>
    ⟨n, poly, linear, shift.set i (Int.emod (shift.getD i 0 + 1) 2)⟩

/-- Shape well-formedness of a group element. -/
def CDWF (e : CNOTDihedral) : Prop :=
  e.poly.n_vars = e.num_qubits ∧ PolyWF e.poly ∧
    e.linear.length = e.num_qubits ∧ (∀ row ∈ e.linear, row.length = e.num_qubits) ∧
    e.shift.length = e.num_qubits

instance (e : CNOTDihedral) : Decidable (CDWF e) :=
  inferInstanceAs (Decidable (e.poly.n_vars = e.num_qubits ∧ PolyWF e.poly ∧
    e.linear.length = e.num_qubits ∧ (∀ row ∈ e.linear, row.length = e.num_qubits) ∧
    e.shift.length = e.num_qubits))

/-- An elementary instruction as consumed by `append_circuit` and produced
by `decompose_CNOTDihedral`.  A `u1` gate's angle is always an integer
multiple `k` of `pi/4` here, which `append_circuit` recovers exactly as
`int(4 * angle / pi) = k`; we store `k`.  `unknown` stands for any
instruction whose name is none of `x`, `u1`, `cx`, `id`. -/
inductive Gate where
  | x (q : Nat)
  | u1 (k : Int) (q : Nat)
  | cx (c t : Nat)
  | id (q : Nat)
  | unknown (name : String)
deriving DecidableEq

/-- `append_circuit` when every instruction is recognized and in range and
`qargs is None`: apply the gates left to right via the generator methods
(`id` is a no-op). -/
def appendGates (e : CNOTDihedral) (gates : List Gate) : CNOTDihedral :=
  gates.foldl
    (fun e g =>
      match g with
      | Gate.x q => flip e q
      | Gate.u1 k q => phase e k q
      | Gate.cx c t => cnot e c t
      | Gate.id _ => e
      | Gate.unknown _ => e)
    e

/-- `append_circuit` with its failure behaviour made observable: the
element is updated in place gate by gate, and a failure (an unrecognized
instruction, or a generator precondition violation, which in the source
aborts before that generator mutates anything) stops the loop, leaving the
mutations of all earlier gates in the element.  `qargs` is the qubit
remapping (`new_qubits = [qargs[tup.index] for tup in qregs]`). -/
def appendCircuitSt (e : CNOTDihedral) (gates : List Gate) (qargs : List Nat) :
    CNOTDihedral × Option String :=
  match gates with
  | [] => (e, none)
  | g :: rest =>
    match g with
    | Gate.x q =>
      let q := qargs.getD q 0
      if q < e.num_qubits then appendCircuitSt (flip e q) rest qargs
      else (e, some "i too big!")
    | Gate.u1 k q =>
      let q := qargs.getD q 0
      if q < e.num_qubits then appendCircuitSt (phase e k q) rest qargs
      else (e, some "i too big!")
    | Gate.cx c t =>
      let c := qargs.getD c 0
      let t := qargs.getD t 0
      if ¬ c < e.num_qubits then (e, some "i too big!")
      else if ¬ t < e.num_qubits then (e, some "j too big!")
      else if c = t then (e, some "i == j!")
      else appendCircuitSt (cnot e c t) rest qargs
    | Gate.id _ => appendCircuitSt e rest qargs
    | Gate.unknown name => (e, some ("Not a CNOT-Dihedral gate: " ++ name))

/-- The `u1`/`x` prefix every branch of the two-qubit decomposition emits:
`u1(l0)` on qubit 0 if `l0 > 0`, `x(0)` if `k0 == 1`, then the same for
qubit 1. -/
def phaseFlipGates (l0 k0 l1 k1 : Int) : List Gate :=
  (if l0 > 0 then [Gate.u1 l0 0] else []) ++ (if k0 = 1 then [Gate.x 0] else [])
    ++ (if l1 > 0 then [Gate.u1 l1 1] else []) ++ (if k1 = 1 then [Gate.x 1] else [])

/-- `decompose_CNOTDihedral` (defined for 1 and 2 qubits; the `u1` angles
`l * pi/4` are recorded by their integer power `l`).  Mirrors the source's
sequence of guarded `circuit.<gate>` calls block by block. -/
def decompose (e : CNOTDihedral) : List Gate :=
  match e with
  | ⟨num_qubits, ⟨_, _, wt1, weight_2, _⟩, linear, shift⟩ =>
  if num_qubits = 1 then
    let l0 := wt1.getD 0 0
    let k0 := shift.getD 0 0
    (if l0 > 0 then [Gate.u1 l0 0] else [])
      ++ (if k0 = 1 then [Gate.x 0] else [])
      ++ (if l0 = 0 ∧ k0 = 0 then [Gate.id 0] else [])
  else
    -- case num_qubits == 2
    let w1_0 := wt1.getD 0 0
    let w1_1 := wt1.getD 1 0
    let w2 := weight_2.getD 0 0
    -- CS subgroup
    (if linear = [[1, 0], [0, 1]] then
      let k0 := shift.getD 0 0
      let k1 := shift.getD 1 0
      -- Dihedral class
      (if weight_2 = [0] then
        phaseFlipGates w1_0 k0 w1_1 k1
          ++ (if w1_0 = 0 ∧ w1_1 = 0 ∧ k0 = 0 ∧ k1 = 0 then [Gate.id 0, Gate.id 1] else [])
      else [])
      -- CS-like class
      ++ (if (weight_2 = [2] ∧ k0 = k1) ∨ (weight_2 = [6] ∧ k0 ≠ k1) then
        let l0 := Int.emod (w1_0 - 2 * k1 - 4 * k0 * k1) 8
        let l1 := Int.emod (w1_1 - 2 * k0 - 4 * k0 * k1) 8
        phaseFlipGates l0 k0 l1 k1
          ++ [Gate.u1 1 0, Gate.u1 1 1, Gate.cx 0 1, Gate.u1 7 1, Gate.cx 0 1]
      else [])
      -- CSdg-like class
      ++ (if (weight_2 = [6] ∧ k0 = k1) ∨ (weight_2 = [2] ∧ k0 ≠ k1) then
        let l0 := Int.emod (w1_0 - 6 * k1 - 4 * k0 * k1) 8
        let l1 := Int.emod (w1_1 - 6 * k0 - 4 * k0 * k1) 8
        phaseFlipGates l0 k0 l1 k1
          ++ [Gate.u1 7 0, Gate.u1 7 1, Gate.cx 0 1, Gate.u1 1 1, Gate.cx 0 1]
      else [])
      -- CZ-like class
      ++ (if weight_2 = [4] then
        let l0 := Int.emod (w1_0 - 4 * k1) 8
        let l1 := Int.emod (w1_1 - 4 * k0) 8
        phaseFlipGates l0 k0 l1 k1
          ++ [Gate.u1 7 1, Gate.u1 7 0, Gate.cx 1 0, Gate.u1 2 0, Gate.cx 1 0,
              Gate.u1 7 1, Gate.u1 7 0]
      else [])
    else [])
    -- CX01-like class
    ++ (if linear = [[1, 0], [1, 1]] then
      let k0 := shift.getD 0 0
      let k1 := Int.emod (shift.getD 1 0 + k0) 2
      let m := if k0 = k1 then Int.emod (Int.tdiv (8 - w2) 2) 4 else Int.emod (Int.tdiv w2 2) 4
      let l0 := if k0 = k1 then Int.emod (w1_0 - m) 8 else Int.emod (w1_0 + m) 8
      let l1 := if k0 = k1 then Int.emod (w1_1 - m) 8 else Int.emod (w1_1 + m) 8
      phaseFlipGates l0 k0 l1 k1 ++ [Gate.cx 0 1] ++ (if m > 0 then [Gate.u1 m 1] else [])
    else [])
    -- CX10-like class
    ++ (if linear = [[1, 1], [0, 1]] then
      let k1 := shift.getD 1 0
      let k0 := Int.emod (shift.getD 0 0 + k1) 2
      let m := if k0 = k1 then Int.emod (Int.tdiv (8 - w2) 2) 4 else Int.emod (Int.tdiv w2 2) 4
      let l0 := if k0 = k1 then Int.emod (w1_0 - m) 8 else Int.emod (w1_0 + m) 8
      let l1 := if k0 = k1 then Int.emod (w1_1 - m) 8 else Int.emod (w1_1 + m) 8
      phaseFlipGates l0 k0 l1 k1 ++ [Gate.cx 1 0] ++ (if m > 0 then [Gate.u1 m 0] else [])
    else [])
    -- CX01*CX10-like class
    ++ (if linear = [[0, 1], [1, 1]] then
      let k1 := shift.getD 0 0
      let k0 := Int.emod (shift.getD 1 0 + k1) 2
      let m := if k0 = k1 then Int.emod (Int.tdiv (8 - w2) 2) 4 else Int.emod (Int.tdiv w2 2) 4
      let l0 := if k0 = k1 then Int.emod (w1_0 - m) 8 else Int.emod (w1_0 + m) 8
      let l1 := if k0 = k1 then Int.emod (w1_1 - m) 8 else Int.emod (w1_1 + m) 8
      phaseFlipGates l0 k0 l1 k1 ++ [Gate.cx 0 1, Gate.cx 1 0]
        ++ (if m > 0 then [Gate.u1 m 1] else [])
    else [])
    -- CX10*CX01-like class
    ++ (if linear = [[1, 1], [1, 0]] then
      let k0 := shift.getD 1 0
      let k1 := Int.emod (shift.getD 0 0 + k0) 2
      let m := if k0 = k1 then Int.emod (Int.tdiv (8 - w2) 2) 4 else Int.emod (Int.tdiv w2 2) 4
      let l0 := if k0 = k1 then Int.emod (w1_0 - m) 8 else Int.emod (w1_0 + m) 8
      let l1 := if k0 = k1 then Int.emod (w1_1 - m) 8 else Int.emod (w1_1 + m) 8
      phaseFlipGates l0 k0 l1 k1 ++ [Gate.cx 1 0, Gate.cx 0 1]
        ++ (if m > 0 then [Gate.u1 m 0] else [])
    else [])
    -- CX01*CX10*CX01-like class
    ++ (if linear = [[0, 1], [1, 0]] then
      let k0 := shift.getD 1 0
      let k1 := shift.getD 0 0
      let m := if k0 = k1 then Int.emod (Int.tdiv (8 - w2) 2) 4 else Int.emod (Int.tdiv w2 2) 4
      let l0 := if k0 = k1 then Int.emod (w1_0 - m) 8 else Int.emod (w1_0 + m) 8
      let l1 := if k0 = k1 then Int.emod (w1_1 - m) 8 else Int.emod (w1_1 + m) 8
      phaseFlipGates l0 k0 l1 k1 ++ [Gate.cx 0 1, Gate.cx 1 0]
        ++ (if m > 0 then [Gate.u1 m 1] else []) ++ [Gate.cx 0 1]
    else [])

/-! ## Canonical keys: the Python `str(tuple)` serialization -/

/-- The decimal rendering of a non-negative integer, `str(n)` in Python:
most significant digit first, `"0"` for zero. -/
def natChars (n : Nat) : List Char :=
  if n = 0 then ['0'] else (Nat.digits 10 n).reverse.map Nat.digitChar

/-- `str` of a Python int (stored coefficients are non-negative, but the
model covers the general case). -/
def intChars (v : Int) : List Char :=
  if v < 0 then '-' :: natChars v.natAbs else natChars v.toNat

/-- `", ".join(...)`. -/
def joinCommaSpace : List (List Char) → List Char
  | [] => []
  | [s] => s
  | s :: rest => s ++ ',' :: ' ' :: joinCommaSpace rest

/-- `str` of a Python tuple whose items render to the given strings:
`"()"`, `"(x,)"` with the 1-tuple's trailing comma, or
`"(x, y, ...)"` with `", "` separators. -/
def pyTupleChars (items : List (List Char)) : List Char :=
  match items with
  | [] => ['(', ')']
  | [s] => '(' :: (s ++ [',', ')'])
  | _ => '(' :: (joinCommaSpace items ++ [')'])

/-- `SpecialPolynomial.key`:
`str((weight_0, tuple(weight_1), tuple(weight_2), tuple(weight_3)))`. -/
def polyKeyChars (p : SpecialPolynomial) : List Char :=
  pyTupleChars [intChars p.weight_0, pyTupleChars (p.weight_1.map intChars),
    pyTupleChars (p.weight_2.map intChars), pyTupleChars (p.weight_3.map intChars)]

/-- `CNOTDihedral.key`:
`str((poly.key, tuple(map(tuple, linear)), tuple(shift)))`; the inner key
string is rendered with `repr`, i.e. wrapped in single quotes (its
characters are digits, parentheses, commas and spaces, so no escaping
happens). -/
def cdKeyChars (e : CNOTDihedral) : List Char :=
  pyTupleChars [Char.ofNat 39 :: (polyKeyChars e.poly ++ [Char.ofNat 39]),
    pyTupleChars (e.linear.map (fun row => pyTupleChars (row.map intChars))),
    pyTupleChars (e.shift.map intChars)]

/-- The canonical key of a group element, as a string. -/
def CDkey (e : CNOTDihedral) : String := ⟨cdKeyChars e⟩

/-! ## `make_dict_0` -/

/-- The element built by `make_dict_0` for counter value `i`: per qubit
`j`, extract `xpower = num % 2` and `tpower = ((num - num % 2)/2) % 8`,
apply `phase(tpower, j)` if positive then `flip(j)` if `xpower == 1`, and
move to the next base-16 digit (`num = (num - num % 16)/16`). -/
def elemOf (n i : Nat) : CNOTDihedral :=
  ((List.range n).foldl
    (fun (st : CNOTDihedral × Nat) j =>
      let e := st.1
      let num := st.2
      let xpower := num % 2
      let tpower := num / 2 % 8
      let e := if tpower > 0 then phase e (tpower : Int) j else e
      let e := if xpower = 1 then flip e j else e
      (e, num / 16))
    (identityElem n, i)).1

/-- The keys inserted by `make_dict_0(n)`, in insertion order. -/
def dict0Keys (n : Nat) : List String :=
  (List.range (16 ^ n)).map (fun i => CDkey (elemOf n i))

/-- The number of entries of the dictionary built by `make_dict_0(n)`
(later insertions with an existing key would overwrite, so the size is
the number of distinct keys). -/
def dict0Size (n : Nat) : Nat := (dict0Keys n).dedup.length

/-! ## The CNOT-dihedral group on 1 and 2 qubits -/

/-- The group reachable from the identity element by the three generator
operations — the CNOT-dihedral group on `n` qubits as the source builds
it. -/
inductive Reachable (n : Nat) : CNOTDihedral → Prop where
  | base : Reachable n (identityElem n)
  | cnotStep {e : CNOTDihedral} (i j : Nat) : Reachable n e → i < n → j < n → i ≠ j →
      Reachable n (cnot e i j)
  | phaseStep {e : CNOTDihedral} (k : Int) (i : Nat) : Reachable n e → i < n →
      Reachable n (phase e k i)
  | flipStep {e : CNOTDihedral} (i : Nat) : Reachable n e → i < n →
      Reachable n (flip e i)

/-- The 6 invertible 2x2 matrices over Z2, in the order of the decomposition
case split. -/
def mats2 : List (List (List Int)) :=
  [[[1, 0], [0, 1]], [[1, 0], [1, 1]], [[1, 1], [0, 1]],
   [[0, 1], [1, 1]], [[1, 1], [1, 0]], [[0, 1], [1, 0]]]

/-- The general 1-qubit group element: phase-polynomial linear coefficient
`l` (in `[0,8)`) and shift bit `s`. -/
def elem1 (l s : Nat) : CNOTDihedral :=
  ⟨1, ⟨1, 0, [(l : Int)], [], []⟩, [[1]], [(s : Int)]⟩

/-- The general 2-qubit group element: linear phase coefficients `l0, l1`,
quadratic coefficient `2*w2h` (always even on group elements), linear part
`mats2[li]`, shift bits `s0, s1`. -/
def elem2 (l0 l1 w2h li s0 s1 : Nat) : CNOTDihedral :=
  ⟨2, ⟨2, 0, [(l0 : Int), (l1 : Int)], [(2 * w2h : Int)], []⟩,
    mats2.getD li [], [(s0 : Int), (s1 : Int)]⟩

/-- The state invariant of 1-qubit group elements. -/
def Elem1Inv (e : CNOTDihedral) : Prop :=
  e.num_qubits = 1 ∧ e.poly.n_vars = 1 ∧ e.poly.weight_0 = 0 ∧
    (∃ a, e.poly.weight_1 = [a] ∧ 0 ≤ a ∧ a < 8) ∧
    e.poly.weight_2 = [] ∧ e.poly.weight_3 = [] ∧ e.linear = [[1]] ∧
    (∃ u, e.shift = [u] ∧ 0 ≤ u ∧ u < 2)

/-- The state invariant of 2-qubit group elements: zero constant and cubic
part, linear coefficients in `[0,8)`, an even quadratic coefficient, one of
the 6 invertible matrices, and a binary shift. -/
def Elem2Inv (e : CNOTDihedral) : Prop :=
  e.num_qubits = 2 ∧ e.poly.n_vars = 2 ∧ e.poly.weight_0 = 0 ∧
    (∃ a b, e.poly.weight_1 = [a, b] ∧ 0 ≤ a ∧ a < 8 ∧ 0 ≤ b ∧ b < 8) ∧
    (∃ c, e.poly.weight_2 = [c] ∧ 0 ≤ c ∧ c < 8 ∧ c % 2 = 0) ∧
    e.poly.weight_3 = [] ∧ e.linear ∈ mats2 ∧
    (∃ u v, e.shift = [u, v] ∧ 0 ≤ u ∧ u < 2 ∧ 0 ≤ v ∧ v < 2)

/-- An invertible 5-qubit element whose linear row 1 has support
`{1,2,3,4}` (the matrix is unit upper triangular on that ordering). -/
def clashElem : CNOTDihedral :=
  ⟨5, zeroPoly 5,
    [[1, 0, 0, 0, 0], [0, 1, 1, 1, 1], [0, 0, 1, 0, 0], [0, 0, 0, 1, 0], [0, 0, 0, 0, 1]],
    [0, 0, 0, 0, 0]⟩

/-- The polynomial `x_3*x_4` on 5 variables. -/
def aliasPoly : SpecialPolynomial := setTerm (zeroPoly 5) [3, 4] 1

/-! ## C2: the composition law -/

/-- The substituted variable exactly as the claim words it: the support is
taken from row `i` of `a.linear` (the left operand), the negation from
`b.shift[i]`. -/
def claimSubstVar (a b : CNOTDihedral) (i : Nat) : SpecialPolynomial :=
  let support := supportOf (a.linear.getD i [])
  let poly := setPj a.num_qubits support
  if b.shift.getD i 0 = 1 then
    let q := scalarMul (-1) poly
    { q with weight_0 := Int.emod (q.weight_0 + 1) 8 }
  else poly

/-- `T_0` as a group element. -/
def ceA : CNOTDihedral := phase (identityElem 2) 1 0

/-- `CNOT_{1,0}` as a group element. -/
def ceB : CNOTDihedral := cnot (identityElem 2) 1 0

/-! ## C6: invertibility of the linear part -/

def toMat (n : Nat) (L : List (List Int)) : Matrix (Fin n) (Fin n) (ZMod 2) :=
  Matrix.of fun i j => (((L.getD i []).getD j 0 : Int) : ZMod 2)

def LinInvertible (e : CNOTDihedral) : Prop :=
  IsUnit (toMat e.num_qubits e.linear).det

/-- Bounded values: every stored coefficient is a single decimal digit
(valid states keep coefficients in `[0,8)` and matrix/shift bits in
`{0,1}`). -/
def BoundedCD (e : CNOTDihedral) : Prop :=
  (0 ≤ e.poly.weight_0 ∧ e.poly.weight_0 < 8) ∧
  (∀ x ∈ e.poly.weight_1, 0 ≤ x ∧ x < 8) ∧ (∀ x ∈ e.poly.weight_2, 0 ≤ x ∧ x < 8) ∧
  (∀ x ∈ e.poly.weight_3, 0 ≤ x ∧ x < 8) ∧
  (∀ row ∈ e.linear, ∀ x ∈ row, 0 ≤ x ∧ x < 8) ∧ (∀ x ∈ e.shift, 0 ≤ x ∧ x < 8)

/-- The rendering of a tuple of single-digit values. -/
def renderIntList (l : List Int) : List Char := pyTupleChars (l.map intChars)

instance (e : CNOTDihedral) : Decidable (BoundedCD e) :=
  inferInstanceAs (Decidable ((0 ≤ e.poly.weight_0 ∧ e.poly.weight_0 < 8) ∧
    (∀ x ∈ e.poly.weight_1, 0 ≤ x ∧ x < 8) ∧ (∀ x ∈ e.poly.weight_2, 0 ≤ x ∧ x < 8) ∧
    (∀ x ∈ e.poly.weight_3, 0 ≤ x ∧ x < 8) ∧
    (∀ row ∈ e.linear, ∀ x ∈ row, 0 ≤ x ∧ x < 8) ∧ (∀ x ∈ e.shift, 0 ≤ x ∧ x < 8)))

/-- The per-qubit digits extracted by `make_dict_0`'s loop. -/
def tdig (i j : Nat) : Nat := i / 16 ^ j / 2 % 8

def xdig (i j : Nat) : Nat := i / 16 ^ j % 2

/-- The state of `make_dict_0`'s element after the first `m` qubits. -/
def elemPartial (n m i : Nat) : CNOTDihedral :=
  ⟨n, ⟨n, 0, (List.range n).map (fun j => if j < m then (tdig i j : Int) else 0),
      List.replicate (nc2 n) 0, List.replicate (nc3 n) 0⟩,
    (identityElem n).linear,
    (List.range n).map (fun j => if j < m then (xdig i j : Int) else 0)⟩

/-- The state of `make_dict_0`'s element after the phase (but not yet the
flip) of qubit `m`. -/
def elemHalf (n m i : Nat) : CNOTDihedral :=
  ⟨n, ⟨n, 0, (List.range n).map (fun j => if j < m + 1 then (tdig i j : Int) else 0),
      List.replicate (nc2 n) 0, List.replicate (nc3 n) 0⟩,
    (identityElem n).linear,
    (List.range n).map (fun j => if j < m then (xdig i j : Int) else 0)⟩

/-- `Int.emod` is the `%` of the `Mod` instance (kept explicit in the
definitions above to pin down Python's floored-modulus semantics). -/
theorem emod_eq (a b : Int) : Int.emod a b = a % b := rfl

theorem mats2_mem0 : [[1, 0], [0, 1]] ∈ mats2 := by decide
theorem mats2_mem1 : [[1, 0], [1, 1]] ∈ mats2 := by decide
theorem mats2_mem2 : [[1, 1], [0, 1]] ∈ mats2 := by decide
theorem mats2_mem3 : [[0, 1], [1, 1]] ∈ mats2 := by decide
theorem mats2_mem4 : [[1, 1], [1, 0]] ∈ mats2 := by decide
theorem mats2_mem5 : [[0, 1], [1, 0]] ∈ mats2 := by decide

theorem elem2Inv_identity : Elem2Inv (identityElem 2) :=
  ⟨rfl, rfl, rfl, ⟨0, 0, rfl, by omega, by omega, by omega, by omega⟩,
    ⟨0, rfl, by omega, by omega, by omega⟩, rfl, mats2_mem0,
    0, 0, rfl, by omega, by omega, by omega, by omega⟩

theorem elem2Inv_flip {e : CNOTDihedral} (h : Elem2Inv e) (i : Nat) (hi : i < 2) :
    Elem2Inv (flip e i) := by
  obtain ⟨e_n, e_p, e_lin, e_sh⟩ := e
  obtain ⟨p_n, p_w0, p_w1, p_w2, p_w3⟩ := e_p
  obtain ⟨hn, hpn, hw0, ⟨a, b, hw1, ha0, ha8, hb0, hb8⟩, ⟨c, hw2, hc0, hc8, hce⟩,
    hw3, hlin, u, v, hsh, hu⟩ := h
  simp only at hn hpn hw0 hw1 hw2 hw3 hlin hsh
  subst hn hpn hw0 hw1 hw2 hw3 hsh
  interval_cases i <;>
    refine ⟨rfl, rfl, rfl, ⟨a, b, rfl, ha0, ha8, hb0, hb8⟩, ⟨c, rfl, hc0, hc8, hce⟩,
      rfl, hlin, _, _, rfl, ?_, ?_, ?_, ?_⟩ <;>
    (try simp only [List.getD_cons_zero, List.getD_cons_succ, emod_eq]) <;> omega

set_option maxHeartbeats 2000000 in
theorem elem2Inv_phase {e : CNOTDihedral} (h : Elem2Inv e) (k : Int) (i : Nat) (hi : i < 2) :
    Elem2Inv (phase e k i) := by
  obtain ⟨e_n, e_p, e_lin, e_sh⟩ := e
  obtain ⟨p_n, p_w0, p_w1, p_w2, p_w3⟩ := e_p
  obtain ⟨hn, hpn, hw0, ⟨a, b, hw1, ha0, ha8, hb0, hb8⟩, ⟨c, hw2, hc0, hc8, hce⟩,
    hw3, hlin, u, v, hsh, hu0, hu2, hv0, hv2⟩ := h
  simp only at hn hpn hw0 hw1 hw2 hw3 hlin hsh
  subst hn hpn hw0 hw1 hw2 hw3 hsh
  simp only [mats2, List.mem_cons, List.not_mem_nil, or_false] at hlin
  rcases hlin with rfl | rfl | rfl | rfl | rfl | rfl <;>
    interval_cases i <;> interval_cases u <;> interval_cases v <;>
    refine ⟨rfl, rfl, rfl, ⟨_, _, rfl, ?_, ?_, ?_, ?_⟩, ⟨_, rfl, ?_, ?_, ?_⟩, rfl,
      by first | exact mats2_mem0 | exact mats2_mem1 | exact mats2_mem2 | exact mats2_mem3 | exact mats2_mem4 | exact mats2_mem5,
      _, _, rfl, by decide, by decide, by decide, by decide⟩ <;>
    (try simp [supportOf, getTerm, setTerm, off2, combos2, combos3, emod_eq,
      List.range_succ]) <;> omega

set_option maxHeartbeats 2000000 in
theorem elem2Inv_cnot {e : CNOTDihedral} (h : Elem2Inv e) (i j : Nat) (hi : i < 2)
    (hj : j < 2) (hij : i ≠ j) : Elem2Inv (cnot e i j) := by
  obtain ⟨e_n, e_p, e_lin, e_sh⟩ := e
  obtain ⟨p_n, p_w0, p_w1, p_w2, p_w3⟩ := e_p
  obtain ⟨hn, hpn, hw0, ⟨a, b, hw1, ha0, ha8, hb0, hb8⟩, ⟨c, hw2, hc0, hc8, hce⟩,
    hw3, hlin, u, v, hsh, hu0, hu2, hv0, hv2⟩ := h
  simp only at hn hpn hw0 hw1 hw2 hw3 hlin hsh
  subst hn hpn hw0 hw1 hw2 hw3 hsh
  simp only [mats2, List.mem_cons, List.not_mem_nil, or_false] at hlin
  rcases hlin with rfl | rfl | rfl | rfl | rfl | rfl <;>
    interval_cases i <;> interval_cases j <;> (try exact absurd rfl hij) <;>
    refine ⟨rfl, rfl, rfl, ⟨a, b, rfl, ha0, ha8, hb0, hb8⟩, ⟨c, rfl, hc0, hc8, hce⟩, rfl,
      by first | exact mats2_mem0 | exact mats2_mem1 | exact mats2_mem2 | exact mats2_mem3 | exact mats2_mem4 | exact mats2_mem5,
      _, _, rfl, ?_, ?_, ?_, ?_⟩ <;>
    (try simp only [List.getD_cons_zero, List.getD_cons_succ, emod_eq]) <;> omega

/-- Every element of the 2-qubit CNOT-dihedral group satisfies the state
invariant. -/
theorem reach2_inv {e : CNOTDihedral} (h : Reachable 2 e) : Elem2Inv e := by
  induction h with
  | base => exact elem2Inv_identity
  | cnotStep i j _ hi hj hij ih => exact elem2Inv_cnot ih i j hi hj hij
  | phaseStep k i _ hi ih => exact elem2Inv_phase ih k i hi
  | flipStep i _ hi ih => exact elem2Inv_flip ih i hi

theorem elem1Inv_identity : Elem1Inv (identityElem 1) :=
  ⟨rfl, rfl, rfl, ⟨0, rfl, by omega, by omega⟩, rfl, rfl, rfl, 0, rfl, by omega, by omega⟩

theorem elem1Inv_flip {e : CNOTDihedral} (h : Elem1Inv e) (i : Nat) (hi : i < 1) :
    Elem1Inv (flip e i) := by
  obtain ⟨e_n, e_p, e_lin, e_sh⟩ := e
  obtain ⟨p_n, p_w0, p_w1, p_w2, p_w3⟩ := e_p
  obtain ⟨hn, hpn, hw0, ⟨a, hw1, ha0, ha8⟩, hw2, hw3, hlin, u, hsh, hu0, hu2⟩ := h
  simp only at hn hpn hw0 hw1 hw2 hw3 hlin hsh
  subst hn hpn hw0 hw1 hw2 hw3 hsh hlin
  interval_cases i
  refine ⟨rfl, rfl, rfl, ⟨a, rfl, ha0, ha8⟩, rfl, rfl, rfl, _, rfl, ?_, ?_⟩ <;>
    (try simp only [List.getD_cons_zero, emod_eq]) <;> omega

theorem elem1Inv_phase {e : CNOTDihedral} (h : Elem1Inv e) (k : Int) (i : Nat) (hi : i < 1) :
    Elem1Inv (phase e k i) := by
  obtain ⟨e_n, e_p, e_lin, e_sh⟩ := e
  obtain ⟨p_n, p_w0, p_w1, p_w2, p_w3⟩ := e_p
  obtain ⟨hn, hpn, hw0, ⟨a, hw1, ha0, ha8⟩, hw2, hw3, hlin, u, hsh, hu0, hu2⟩ := h
  simp only at hn hpn hw0 hw1 hw2 hw3 hlin hsh
  subst hn hpn hw0 hw1 hw2 hw3 hsh hlin
  interval_cases i <;> interval_cases u <;>
    refine ⟨rfl, rfl, rfl, ⟨_, rfl, ?_, ?_⟩, rfl, rfl, rfl, _, rfl, by decide, by decide⟩ <;>
    (try simp [supportOf, getTerm, setTerm, emod_eq, List.range_succ]) <;> omega

/-- Every element of the 1-qubit CNOT-dihedral group satisfies the state
invariant. -/
theorem reach1_inv {e : CNOTDihedral} (h : Reachable 1 e) : Elem1Inv e := by
  induction h with
  | base => exact elem1Inv_identity
  | cnotStep i j _ hi hj hij ih => omega
  | phaseStep k i _ hi ih => exact elem1Inv_phase ih k i hi
  | flipStep i _ hi ih => exact elem1Inv_flip ih i hi

/-- Every valid 1-qubit state is an `elem1`. -/
theorem elem1Inv_elem1 {e : CNOTDihedral} (h : Elem1Inv e) :
    ∃ l s : Nat, l < 8 ∧ s < 2 ∧ e = elem1 l s := by
  obtain ⟨e_n, e_p, e_lin, e_sh⟩ := e
  obtain ⟨p_n, p_w0, p_w1, p_w2, p_w3⟩ := e_p
  obtain ⟨hn, hpn, hw0, ⟨a, hw1, ha0, ha8⟩, hw2, hw3, hlin, u, hsh, hu0, hu2⟩ := h
  simp only at hn hpn hw0 hw1 hw2 hw3 hlin hsh
  subst hn hpn hw0 hw1 hw2 hw3 hsh hlin
  refine ⟨a.toNat, u.toNat, by omega, by omega, ?_⟩
  simp only [elem1, Int.toNat_of_nonneg ha0, Int.toNat_of_nonneg hu0]

/-- Every valid 2-qubit state is an `elem2`. -/
theorem elem2Inv_elem2 {e : CNOTDihedral} (h : Elem2Inv e) :
    ∃ l0 l1 w2h li s0 s1 : Nat, l0 < 8 ∧ l1 < 8 ∧ w2h < 4 ∧ li < 6 ∧ s0 < 2 ∧ s1 < 2 ∧
      e = elem2 l0 l1 w2h li s0 s1 := by
  obtain ⟨e_n, e_p, e_lin, e_sh⟩ := e
  obtain ⟨p_n, p_w0, p_w1, p_w2, p_w3⟩ := e_p
  obtain ⟨hn, hpn, hw0, ⟨a, b, hw1, ha0, ha8, hb0, hb8⟩, ⟨c, hw2, hc0, hc8, hce⟩,
    hw3, hlin, u, v, hsh, hu0, hu2, hv0, hv2⟩ := h
  simp only at hn hpn hw0 hw1 hw2 hw3 hlin hsh
  subst hn hpn hw0 hw1 hw2 hw3 hsh
  have hc2 : (2 : Int) * ((c / 2).toNat : Int) = c := by
    rw [Int.toNat_of_nonneg (by omega : (0 : Int) ≤ c / 2)]
    omega
  simp only [mats2, List.mem_cons, List.not_mem_nil, or_false] at hlin
  rcases hlin with rfl | rfl | rfl | rfl | rfl | rfl
  · exact ⟨a.toNat, b.toNat, (c / 2).toNat, 0, u.toNat, v.toNat, by omega, by omega,
      by omega, by omega, by omega, by omega, by
        simp only [elem2, mats2, Nat.cast_mul, Nat.cast_ofNat, hc2,
          Int.toNat_of_nonneg ha0, Int.toNat_of_nonneg hb0,
          Int.toNat_of_nonneg hu0, Int.toNat_of_nonneg hv0, List.getD_cons_zero]⟩
  · exact ⟨a.toNat, b.toNat, (c / 2).toNat, 1, u.toNat, v.toNat, by omega, by omega,
      by omega, by omega, by omega, by omega, by
        simp only [elem2, mats2, Nat.cast_mul, Nat.cast_ofNat, hc2,
          Int.toNat_of_nonneg ha0, Int.toNat_of_nonneg hb0,
          Int.toNat_of_nonneg hu0, Int.toNat_of_nonneg hv0, List.getD_cons_zero,
          List.getD_cons_succ]⟩
  · exact ⟨a.toNat, b.toNat, (c / 2).toNat, 2, u.toNat, v.toNat, by omega, by omega,
      by omega, by omega, by omega, by omega, by
        simp only [elem2, mats2, Nat.cast_mul, Nat.cast_ofNat, hc2,
          Int.toNat_of_nonneg ha0, Int.toNat_of_nonneg hb0,
          Int.toNat_of_nonneg hu0, Int.toNat_of_nonneg hv0, List.getD_cons_zero,
          List.getD_cons_succ]⟩
  · exact ⟨a.toNat, b.toNat, (c / 2).toNat, 3, u.toNat, v.toNat, by omega, by omega,
      by omega, by omega, by omega, by omega, by
        simp only [elem2, mats2, Nat.cast_mul, Nat.cast_ofNat, hc2,
          Int.toNat_of_nonneg ha0, Int.toNat_of_nonneg hb0,
          Int.toNat_of_nonneg hu0, Int.toNat_of_nonneg hv0, List.getD_cons_zero,
          List.getD_cons_succ]⟩
  · exact ⟨a.toNat, b.toNat, (c / 2).toNat, 4, u.toNat, v.toNat, by omega, by omega,
      by omega, by omega, by omega, by omega, by
        simp only [elem2, mats2, Nat.cast_mul, Nat.cast_ofNat, hc2,
          Int.toNat_of_nonneg ha0, Int.toNat_of_nonneg hb0,
          Int.toNat_of_nonneg hu0, Int.toNat_of_nonneg hv0, List.getD_cons_zero,
          List.getD_cons_succ]⟩
  · exact ⟨a.toNat, b.toNat, (c / 2).toNat, 5, u.toNat, v.toNat, by omega, by omega,
      by omega, by omega, by omega, by omega, by
        simp only [elem2, mats2, Nat.cast_mul, Nat.cast_ofNat, hc2,
          Int.toNat_of_nonneg ha0, Int.toNat_of_nonneg hb0,
          Int.toNat_of_nonneg hu0, Int.toNat_of_nonneg hv0, List.getD_cons_zero,
          List.getD_cons_succ]⟩

theorem all_range {n : Nat} {f : Nat → Bool} (h : (List.range n).all f = true)
    {i : Nat} (hi : i < n) : f i = true :=
  List.all_eq_true.mp h i (List.mem_range.mpr hi)

set_option maxHeartbeats 4000000 in
set_option maxRecDepth 100000 in
theorem rt1_all : ((List.range 8).all fun l => (List.range 2).all fun s =>
    decide (appendGates (identityElem 1) (decompose (elem1 l s)) = elem1 l s)) = true := by
  decide

set_option maxHeartbeats 40000000 in
set_option maxRecDepth 100000 in
theorem rt2_all0 : ((List.range 8).all fun l0 => (List.range 8).all fun l1 =>
    (List.range 4).all fun w2h => (List.range 2).all fun s0 => (List.range 2).all fun s1 =>
    decide (appendGates (identityElem 2) (decompose (elem2 l0 l1 w2h 0 s0 s1)) =
      elem2 l0 l1 w2h 0 s0 s1)) = true := by
  decide

set_option maxHeartbeats 40000000 in
set_option maxRecDepth 100000 in
theorem rt2_all1 : ((List.range 8).all fun l0 => (List.range 8).all fun l1 =>
    (List.range 4).all fun w2h => (List.range 2).all fun s0 => (List.range 2).all fun s1 =>
    decide (appendGates (identityElem 2) (decompose (elem2 l0 l1 w2h 1 s0 s1)) =
      elem2 l0 l1 w2h 1 s0 s1)) = true := by
  decide

set_option maxHeartbeats 40000000 in
set_option maxRecDepth 100000 in
theorem rt2_all2 : ((List.range 8).all fun l0 => (List.range 8).all fun l1 =>
    (List.range 4).all fun w2h => (List.range 2).all fun s0 => (List.range 2).all fun s1 =>
    decide (appendGates (identityElem 2) (decompose (elem2 l0 l1 w2h 2 s0 s1)) =
      elem2 l0 l1 w2h 2 s0 s1)) = true := by
  decide

set_option maxHeartbeats 40000000 in
set_option maxRecDepth 100000 in
theorem rt2_all3 : ((List.range 8).all fun l0 => (List.range 8).all fun l1 =>
    (List.range 4).all fun w2h => (List.range 2).all fun s0 => (List.range 2).all fun s1 =>
    decide (appendGates (identityElem 2) (decompose (elem2 l0 l1 w2h 3 s0 s1)) =
      elem2 l0 l1 w2h 3 s0 s1)) = true := by
  decide

set_option maxHeartbeats 40000000 in
set_option maxRecDepth 100000 in
theorem rt2_all4 : ((List.range 8).all fun l0 => (List.range 8).all fun l1 =>
    (List.range 4).all fun w2h => (List.range 2).all fun s0 => (List.range 2).all fun s1 =>
    decide (appendGates (identityElem 2) (decompose (elem2 l0 l1 w2h 4 s0 s1)) =
      elem2 l0 l1 w2h 4 s0 s1)) = true := by
  decide

set_option maxHeartbeats 40000000 in
set_option maxRecDepth 100000 in
theorem rt2_all5 : ((List.range 8).all fun l0 => (List.range 8).all fun l1 =>
    (List.range 4).all fun w2h => (List.range 2).all fun s0 => (List.range 2).all fun s1 =>
    decide (appendGates (identityElem 2) (decompose (elem2 l0 l1 w2h 5 s0 s1)) =
      elem2 l0 l1 w2h 5 s0 s1)) = true := by
  decide

/-- Round trip on every valid 1-qubit state. -/
theorem rt1 (l s : Nat) (hl : l < 8) (hs : s < 2) :
    appendGates (identityElem 1) (decompose (elem1 l s)) = elem1 l s :=
  of_decide_eq_true (all_range (all_range rt1_all hl) hs)

/-- Round trip on every valid 2-qubit state. -/
theorem rt2 (l0 l1 w2h li s0 s1 : Nat) (h0 : l0 < 8) (h1 : l1 < 8) (hw : w2h < 4)
    (hli : li < 6) (hs0 : s0 < 2) (hs1 : s1 < 2) :
    appendGates (identityElem 2) (decompose (elem2 l0 l1 w2h li s0 s1)) =
      elem2 l0 l1 w2h li s0 s1 := by
  interval_cases li
  · exact of_decide_eq_true
      (all_range (all_range (all_range (all_range (all_range rt2_all0 h0) h1) hw) hs0) hs1)
  · exact of_decide_eq_true
      (all_range (all_range (all_range (all_range (all_range rt2_all1 h0) h1) hw) hs0) hs1)
  · exact of_decide_eq_true
      (all_range (all_range (all_range (all_range (all_range rt2_all2 h0) h1) hw) hs0) hs1)
  · exact of_decide_eq_true
      (all_range (all_range (all_range (all_range (all_range rt2_all3 h0) h1) hw) hs0) hs1)
  · exact of_decide_eq_true
      (all_range (all_range (all_range (all_range (all_range rt2_all4 h0) h1) hw) hs0) hs1)
  · exact of_decide_eq_true
      (all_range (all_range (all_range (all_range (all_range rt2_all5 h0) h1) hw) hs0) hs1)

/-- C1: for every CNOT-dihedral group element `e` on 1 or 2 qubits
(that is, every element reachable from the identity element by the
generator operations `cnot`, `phase`, `flip`), applying the gate sequence
produced by `decompose_CNOTDihedral(e)` to a fresh identity element of the
same qubit count via `append_circuit` yields an element structurally equal
to `e`, with equal canonical keys. -/
theorem C1_decompose_roundtrip (n : Nat) (e : CNOTDihedral) (hn : n = 1 ∨ n = 2)
    (he : Reachable n e) :
    appendGates (identityElem n) (decompose e) = e ∧
      CDkey (appendGates (identityElem n) (decompose e)) = CDkey e := by
  rcases hn with rfl | rfl
  · obtain ⟨l, s, hl, hs, rfl⟩ := elem1Inv_elem1 (reach1_inv he)
    have h := rt1 l s hl hs
    exact ⟨h, by rw [h]⟩
  · obtain ⟨l0, l1, w2h, li, s0, s1, h0, h1, hw, hli, hs0, hs1, rfl⟩ :=
      elem2Inv_elem2 (reach2_inv he)
    have h := rt2 l0 l1 w2h li s0 s1 h0 h1 hw hli hs0 hs1
    exact ⟨h, by rw [h]⟩

/-- C1 witness: the theorem applied to the identity element on 2 qubits. -/
theorem C1_decompose_roundtrip_witness :
    appendGates (identityElem 2) (decompose (identityElem 2)) = identityElem 2 ∧
      CDkey (appendGates (identityElem 2) (decompose (identityElem 2))) =
        CDkey (identityElem 2) :=
  C1_decompose_roundtrip 2 (identityElem 2) (Or.inr rfl) Reachable.base

theorem getD_set_ne {α : Type} {d x : α} {l : List α} {j r : Nat} (h : r ≠ j) :
    (l.set j x).getD r d = l.getD r d := by
  simp [List.getD_eq_getElem?_getD, List.getElem?_set_ne (Ne.symm h)]

/-- C10: frame property of the three generators.  `cnot(i,j)` touches only
row `j` of `linear` and entry `j` of `shift`; `phase(k,i)` touches only the
polynomial; `flip(i)` touches only entry `i` of `shift`. -/
theorem C10_generator_frames (e : CNOTDihedral) (i j : Nat) (k : Int)
    (hi : i < e.num_qubits) (hj : j < e.num_qubits) (hij : i ≠ j) :
    ((cnot e i j).num_qubits = e.num_qubits ∧ (cnot e i j).poly = e.poly ∧
      (cnot e i j).linear.length = e.linear.length ∧
      (cnot e i j).shift.length = e.shift.length ∧
      (∀ r, r ≠ j → (cnot e i j).linear.getD r [] = e.linear.getD r []) ∧
      (∀ r, r ≠ j → (cnot e i j).shift.getD r 0 = e.shift.getD r 0)) ∧
    ((phase e k i).num_qubits = e.num_qubits ∧ (phase e k i).linear = e.linear ∧
      (phase e k i).shift = e.shift) ∧
    ((flip e i).num_qubits = e.num_qubits ∧ (flip e i).poly = e.poly ∧
      (flip e i).linear = e.linear ∧ (flip e i).shift.length = e.shift.length ∧
      (∀ r, r ≠ i → (flip e i).shift.getD r 0 = e.shift.getD r 0)) := by
  obtain ⟨n, poly, linear, shift⟩ := e
  refine ⟨⟨rfl, rfl, by simp [cnot], by simp [cnot], ?_, ?_⟩, ⟨rfl, rfl, rfl⟩,
    ⟨rfl, rfl, rfl, by simp [flip], ?_⟩⟩ <;>
    intro r hr <;> exact getD_set_ne hr

/-- C10 witness: the frame property at a concrete 2-qubit element. -/
theorem C10_generator_frames_witness :
    ((cnot (identityElem 2) 0 1).num_qubits = (identityElem 2).num_qubits ∧
      (cnot (identityElem 2) 0 1).poly = (identityElem 2).poly ∧
      (cnot (identityElem 2) 0 1).linear.length = (identityElem 2).linear.length ∧
      (cnot (identityElem 2) 0 1).shift.length = (identityElem 2).shift.length ∧
      (∀ r, r ≠ 1 → (cnot (identityElem 2) 0 1).linear.getD r [] =
        (identityElem 2).linear.getD r []) ∧
      (∀ r, r ≠ 1 → (cnot (identityElem 2) 0 1).shift.getD r 0 =
        (identityElem 2).shift.getD r 0)) ∧
    ((phase (identityElem 2) 3 0).num_qubits = (identityElem 2).num_qubits ∧
      (phase (identityElem 2) 3 0).linear = (identityElem 2).linear ∧
      (phase (identityElem 2) 3 0).shift = (identityElem 2).shift) ∧
    ((flip (identityElem 2) 0).num_qubits = (identityElem 2).num_qubits ∧
      (flip (identityElem 2) 0).poly = (identityElem 2).poly ∧
      (flip (identityElem 2) 0).linear = (identityElem 2).linear ∧
      (flip (identityElem 2) 0).shift.length = (identityElem 2).shift.length ∧
      (∀ r, r ≠ 0 → (flip (identityElem 2) 0).shift.getD r 0 =
        (identityElem 2).shift.getD r 0)) :=
  C10_generator_frames (identityElem 2) 0 1 3 (by decide) (by decide) (by decide)

/-! ## The cubic-offset defect of `get_term` / `set_term` -/

/-- C5: the degree-3 offset formula is NOT injective over valid index
lists: on 5 variables, the distinct valid terms `[1,3,4]` and `[2,3,4]`
share offset 9, so `set_term([1,3,4], v)` changes `get_term([2,3,4])`; on
6 variables the valid term `[2,4,5]` is mapped to offset 20 = `len(weight_3)`,
out of bounds (an `IndexError` in the source).  This theorem evaluates the
code at those failing inputs. -/
theorem C5_offset_clash :
    validIndices 5 [1, 3, 4] ∧ validIndices 5 [2, 3, 4] ∧ ([1, 3, 4] : List Nat) ≠ [2, 3, 4] ∧
    off3 5 1 3 4 = 9 ∧ off3 5 2 3 4 = 9 ∧
    getTerm (setTerm (zeroPoly 5) [1, 3, 4] 1) [2, 3, 4] = 1 ∧
    getTerm (zeroPoly 5) [2, 3, 4] = 0 ∧
    validIndices 6 [2, 4, 5] ∧ off3 6 2 4 5 = nc3 6 := by decide

/-- C3: `phase(1, 1)` on `clashElem` should add `4*k = 4` to the term of
the 3-subset `{2,3,4}` of the support, but because the cubic offsets of
`[1,3,4]` and `[2,3,4]` collide, that slot receives `4 + 4 = 0 mod 8`:
the coefficient of the valid term `[2,3,4]` stays `0` instead of becoming
`4` (the sibling term `[1,2,3]` does get its `4`).  `linear` and `shift`
are indeed untouched. -/
theorem C3_phase_clash :
    getTerm (phase clashElem 1 1).poly [2, 3, 4] = 0 ∧
    getTerm clashElem.poly [2, 3, 4] = 0 ∧
    Int.emod (getTerm clashElem.poly [2, 3, 4] + 4 * 1) 8 = 4 ∧
    getTerm (phase clashElem 1 1).poly [1, 2, 3] = 4 ∧
    (phase clashElem 1 1).linear = clashElem.linear ∧
    (phase clashElem 1 1).shift = clashElem.shift := by decide

/-- C9: `mul_monomial` on the valid input `self = x_3*x_4` (5 variables),
`indices = [1]` never returns: the monomial passes all three entry asserts
(`validIndices`), and the true product `x_1*x_3*x_4` is a representable
degree-3 term, but the enumeration loop reaches the term `[0,2,3]`, whose
union with `[1]` is the four-index list `[0,1,2,3]`, and `get_term`'s
`length < 4` assert raises `AssertionError` (`no term!`) — the
failure-aware model returns `none`. -/
theorem C9_mul_monomial_abort :
    validIndices aliasPoly.n_vars [1] ∧
    unionSorted [0, 2, 3] [1] = [0, 1, 2, 3] ∧
    getTermE (zeroPoly 5) (unionSorted [0, 2, 3] [1]) = none ∧
    mulMonomialE aliasPoly [1] = none := by decide

/-! ## C8: failure atomicity of `append_circuit` -/

/-- C8 counterexample: `append_circuit` applies gates in place one at a
time, so when it aborts on the unrecognized gate `h`, the earlier `x`
gate's mutation is observable: the element is no longer the identity. -/
theorem C8_partial_mutation :
    ((appendCircuitSt (identityElem 1) [Gate.x 0, Gate.unknown "h"] [0]).2).isSome = true ∧
    (appendCircuitSt (identityElem 1) [Gate.x 0, Gate.unknown "h"] [0]).1 ≠ identityElem 1 := by
  decide

/-- C8 amended: the generator methods themselves validate before mutating
(a failing gate leaves the element exactly as it was before that gate),
so a failing `append_circuit` leaves the element in the state obtained by
successfully applying the longest prefix of gates before the failing one
— that partial mutation is observable. -/
theorem C8_append_fails_at_prefix (gates : List Gate) (e : CNOTDihedral) (qargs : List Nat)
    (hfail : ((appendCircuitSt e gates qargs).2).isSome = true) :
    ∃ pre suf, gates = pre ++ suf ∧ (appendCircuitSt e pre qargs).2 = none ∧
      (appendCircuitSt e gates qargs).1 = (appendCircuitSt e pre qargs).1 := by
  induction gates generalizing e with
  | nil => simp [appendCircuitSt] at hfail
  | cons g rest ih =>
    cases g with
    | x q =>
      by_cases h : qargs.getD q 0 < e.num_qubits
      · simp only [appendCircuitSt, if_pos h] at hfail ⊢
        obtain ⟨pre, suf, hps, hok, hres⟩ := ih _ hfail
        refine ⟨Gate.x q :: pre, suf, by rw [hps]; rfl, ?_, ?_⟩
        · simp only [appendCircuitSt, if_pos h]; exact hok
        · simp only [appendCircuitSt, if_pos h]; exact hres
      · exact ⟨[], Gate.x q :: rest, rfl, rfl, by simp only [appendCircuitSt, if_neg h]⟩
    | u1 k q =>
      by_cases h : qargs.getD q 0 < e.num_qubits
      · simp only [appendCircuitSt, if_pos h] at hfail ⊢
        obtain ⟨pre, suf, hps, hok, hres⟩ := ih _ hfail
        refine ⟨Gate.u1 k q :: pre, suf, by rw [hps]; rfl, ?_, ?_⟩
        · simp only [appendCircuitSt, if_pos h]; exact hok
        · simp only [appendCircuitSt, if_pos h]; exact hres
      · exact ⟨[], Gate.u1 k q :: rest, rfl, rfl, by simp only [appendCircuitSt, if_neg h]⟩
    | cx c t =>
      by_cases h1 : ¬ qargs.getD c 0 < e.num_qubits
      · exact ⟨[], Gate.cx c t :: rest, rfl, rfl, by simp only [appendCircuitSt, if_pos h1]⟩
      by_cases h2 : ¬ qargs.getD t 0 < e.num_qubits
      · exact ⟨[], Gate.cx c t :: rest, rfl, rfl,
          by simp only [appendCircuitSt, if_neg h1, if_pos h2]⟩
      by_cases h3 : qargs.getD c 0 = qargs.getD t 0
      · exact ⟨[], Gate.cx c t :: rest, rfl, rfl,
          by simp only [appendCircuitSt, if_neg h1, if_neg h2, if_pos h3]⟩
      · simp only [appendCircuitSt, if_neg h1, if_neg h2, if_neg h3] at hfail ⊢
        obtain ⟨pre, suf, hps, hok, hres⟩ := ih _ hfail
        refine ⟨Gate.cx c t :: pre, suf, by rw [hps]; rfl, ?_, ?_⟩
        · simp only [appendCircuitSt, if_neg h1, if_neg h2, if_neg h3]; exact hok
        · simp only [appendCircuitSt, if_neg h1, if_neg h2, if_neg h3]; exact hres
    | id q =>
      simp only [appendCircuitSt] at hfail ⊢
      obtain ⟨pre, suf, hps, hok, hres⟩ := ih _ hfail
      refine ⟨Gate.id q :: pre, suf, by rw [hps]; rfl, ?_, ?_⟩
      · simp only [appendCircuitSt]; exact hok
      · simp only [appendCircuitSt]; exact hres
    | unknown name =>
      exact ⟨[], Gate.unknown name :: rest, rfl, rfl, by simp only [appendCircuitSt]⟩

/-- C8 amended witness: at the concrete failing input. -/
theorem C8_append_fails_at_prefix_witness :
    ∃ pre suf, ([Gate.x 0, Gate.unknown "h"] : List Gate) = pre ++ suf ∧
      (appendCircuitSt (identityElem 1) pre [0]).2 = none ∧
      (appendCircuitSt (identityElem 1) [Gate.x 0, Gate.unknown "h"] [0]).1 =
        (appendCircuitSt (identityElem 1) pre [0]).1 :=
  C8_append_fails_at_prefix [Gate.x 0, Gate.unknown "h"] (identityElem 1) [0] (by decide)

/-- C2 counterexample: for `a = T_0` (linear part `I`) and
`b = CNOT_{1,0}` (linear part `[[1,1],[0,1]]`), the polynomial of `a * b`
does NOT equal `b.poly + a.poly` evaluated at the claim's substituted
variables, which take the support from row `i` of `a.linear`: the code
takes the support from row `i` of `b.linear` (the right operand, the one
applied first).  Here the code yields `x_0 + x_1 + 6 x_0 x_1`, the
claim's formula `x_0`. -/
theorem C2_claim_subst_false :
    (mulCD ceA ceB).poly ≠
      polyAdd ceB.poly (evalPoly ceA.poly ((List.range 2).map (claimSubstVar ceA ceB))) := by
  decide

theorem getD_map_range {α : Type} (g : Nat → α) (d : α) {n i : Nat} (h : i < n) :
    ((List.range n).map g).getD i d = g i := by
  simp [List.getD_eq_getElem?_getD, List.getElem?_range h]

theorem getD_map_zip (f : Int → Int → Int) (l1 l2 : List Int) (i : Nat)
    (h1 : i < l1.length) (h2 : i < l2.length) :
    ((l1.zip l2).map (fun x => f x.1 x.2)).getD i 0 = f (l1.getD i 0) (l2.getD i 0) := by
  have hz : i < (l1.zip l2).length := by
    simp only [List.length_zip]
    omega
  rw [List.getD_eq_getElem _ _ (by simpa using hz), List.getElem_map, List.getElem_zip,
      List.getD_eq_getElem _ _ h1, List.getD_eq_getElem _ _ h2]

/-- An accumulating fold that reduces mod 2 at every step computes the sum
mod 2. -/
theorem foldl_emod2 (f : Nat → Int) (l : List Nat) : ∀ a : Int,
    l.foldl (fun acc x => Int.emod (acc + f x) 2) (a % 2) = (a + (l.map f).sum) % 2 := by
  induction l with
  | nil => intro a; simp
  | cons x xs ih =>
    intro a
    simp only [List.foldl_cons, List.map_cons, List.sum_cons, emod_eq]
    have h1 : (a % 2 + f x) % 2 = (a + f x) % 2 := by omega
    have h2 := ih (a + f x)
    simp only [emod_eq] at h2
    rw [h1, h2]
    ring_nf

/-- `_z2matmul` computes the Z2 matrix product entry-wise. -/
theorem z2matmul_entry (n : Nat) (A B : List (List Int)) {i j : Nat} (hi : i < n) (hj : j < n) :
    ((z2matmul n A B).getD i []).getD j 0 =
      ((List.range n).map (fun k => (A.getD i []).getD k 0 * (B.getD k []).getD j 0)).sum % 2 := by
  unfold z2matmul
  rw [getD_map_range _ _ hi, getD_map_range _ _ hj]
  have h := foldl_emod2 (fun k => (A.getD i []).getD k 0 * (B.getD k []).getD j 0) (List.range n) 0
  simpa using h

/-- `_z2matvecmul` computes the Z2 matrix-vector product entry-wise. -/
theorem z2matvecmul_entry (n : Nat) (M : List (List Int)) (v : List Int) {i : Nat} (hi : i < n) :
    (z2matvecmul n M v).getD i 0 =
      ((List.range n).map (fun k => (M.getD i []).getD k 0 * v.getD k 0)).sum % 2 := by
  unfold z2matvecmul
  rw [getD_map_range _ _ hi]
  have h := foldl_emod2 (fun k => (M.getD i []).getD k 0 * v.getD k 0) (List.range n) 0
  simpa using h

theorem foldlM_some {α β : Type} (f : β → α → Option β) (g : β → α → β)
    (hfg : ∀ acc x c, f acc x = some c → g acc x = c) :
    ∀ (l : List α) (init r : β), List.foldlM f init l = some r → List.foldl g init l = r
  | [], init, r, h => by
    simp only [List.foldlM_nil, Option.pure_def, Option.some.injEq] at h
    simpa using h
  | a :: l, init, r, h => by
    simp only [List.foldlM_cons, Option.bind_eq_bind, Option.bind_eq_some] at h
    obtain ⟨b, hb, h⟩ := h
    rw [List.foldl_cons, hfg init a b hb]
    exact foldlM_some f g hfg l b r h

theorem foldl_append_map {α β : Type} (g : α → β) :
    ∀ (l : List α) (acc : List β),
      l.foldl (fun acc x => acc ++ [g x]) acc = acc ++ l.map g
  | [], acc => by simp
  | a :: l, acc => by
    rw [List.foldl_cons, foldl_append_map g l (acc ++ [g a])]
    simp

theorem getTermE_some {p : SpecialPolynomial} {L : List Nat} {v : Int}
    (h : getTermE p L = some v) : getTerm p L = v := by
  obtain ⟨n, w0, w1, w2, w3⟩ := p
  unfold getTermE at h
  split at h
  case isFalse => cases h
  case isTrue hv =>
    match L with
    | [] =>
      injection h
    | [a] =>
      show w1.getD a 0 = v
      rw [List.getD_eq_getElem?_getD, show w1[a]? = some v from h]
      rfl
    | [a, b] =>
      show w2.getD (off2 n a b) 0 = v
      rw [List.getD_eq_getElem?_getD, show w2[off2 n a b]? = some v from h]
      rfl
    | [a, b, c] =>
      show w3.getD (off3 n a b c) 0 = v
      rw [List.getD_eq_getElem?_getD, show w3[off3 n a b c]? = some v from h]
      rfl
    | _ :: _ :: _ :: _ :: _ =>
      cases show (none : Option Int) = some v from h

theorem setTermE_some {p : SpecialPolynomial} {L : List Nat} {v : Int} {q : SpecialPolynomial}
    (h : setTermE p L v = some q) : setTerm p L v = q := by
  obtain ⟨n, w0, w1, w2, w3⟩ := p
  unfold setTermE at h
  split at h
  case isFalse => cases h
  case isTrue hv =>
    match L with
    | [] =>
      injection h
    | [a] =>
      have h' : (if a < w1.length then
          some (⟨n, w0, w1.set a (Int.emod v 8), w2, w3⟩ : SpecialPolynomial) else none)
          = some q := h
      split at h'
      · injection h'
      · cases h'
    | [a, b] =>
      have h' : (if off2 n a b < w2.length then
          some (⟨n, w0, w1, w2.set (off2 n a b) (Int.emod v 8), w3⟩ : SpecialPolynomial)
          else none) = some q := h
      split at h'
      · injection h'
      · cases h'
    | [a, b, c] =>
      have h' : (if off3 n a b c < w3.length then
          some (⟨n, w0, w1, w2, w3.set (off3 n a b c) (Int.emod v 8)⟩ : SpecialPolynomial)
          else none) = some q := h
      split at h'
      · injection h'
      · cases h'
    | _ :: _ :: _ :: _ :: _ =>
      cases show (none : Option SpecialPolynomial) = some q from h

theorem mulMonomialE_some {p : SpecialPolynomial} {indices : List Nat} {q : SpecialPolynomial}
    (h : mulMonomialE p indices = some q) : mulMonomial p indices = q := by
  unfold mulMonomialE at h
  unfold mulMonomial
  split at h
  case isFalse => cases h
  case isTrue hv =>
    by_cases hind : indices = []
    · rw [if_pos hind] at h ⊢
      injection h
    · rw [if_neg hind] at h ⊢
      refine foldlM_some _ _ ?_ _ _ _ h
      intro acc term c hf
      simp only [Option.bind_eq_bind, Option.bind_eq_some] at hf
      obtain ⟨value, hval, cur, hcur, hset⟩ := hf
      show setTerm acc (unionSorted term indices)
        (Int.emod (getTerm acc (unionSorted term indices) + getTerm p term) 8) = c
      rw [getTermE_some hval, getTermE_some hcur]
      exact setTermE_some hset

theorem polyMulE_some {p q r : SpecialPolynomial}
    (h : polyMulE p q = some r) : polyMul p q = r := by
  unfold polyMulE at h
  unfold polyMul
  split at h
  case isFalse => cases h
  case isTrue hn =>
    refine foldlM_some _ _ ?_ _ _ _ h
    intro acc term c hf
    simp only [Option.bind_eq_bind, Option.bind_eq_some] at hf
    obtain ⟨value, hval, hrest⟩ := hf
    show (if getTerm q term ≠ 0 then
        polyAdd acc (scalarMul (getTerm q term) (mulMonomial p term)) else acc) = c
    rw [getTermE_some hval]
    by_cases h0 : value ≠ 0
    · rw [if_pos h0] at hrest ⊢
      simp only [Option.bind_eq_bind, Option.bind_eq_some, Option.pure_def,
        Option.some.injEq] at hrest
      obtain ⟨temp, htemp, hc⟩ := hrest
      rw [mulMonomialE_some htemp]
      exact hc
    · rw [if_neg h0] at hrest ⊢
      injection hrest

theorem evalPolyE_some {p : SpecialPolynomial} {xval : List SpecialPolynomial}
    {r : SpecialPolynomial} (h : evalPolyE p xval = some r) : evalPoly p xval = r := by
  unfold evalPolyE at h
  unfold evalPoly
  split at h
  case isFalse => cases h
  case isTrue hg =>
    refine foldlM_some _ _ ?_ _ _ _ h
    intro acc term c hf
    simp only [Option.bind_eq_bind, Option.bind_eq_some] at hf
    obtain ⟨value, hval, hrest⟩ := hf
    show (if getTerm p term ≠ 0 then
        polyAdd acc (scalarMul (getTerm p term)
          ((term.map (fun j => xval.getD j (zeroPoly p.n_vars))).foldl
            polyMul (onePoly p.n_vars))) else acc) = c
    rw [getTermE_some hval]
    by_cases h0 : value ≠ 0
    · rw [if_pos h0] at hrest ⊢
      simp only [Option.bind_eq_bind, Option.bind_eq_some, Option.pure_def,
        Option.some.injEq] at hrest
      obtain ⟨newterm, hnew, hc⟩ := hrest
      rw [foldlM_some polyMulE polyMul (fun a x c hx => polyMulE_some hx) _ _ _ hnew]
      exact hc
    · rw [if_neg h0] at hrest ⊢
      injection hrest

theorem setPjE_some {n : Nat} {indices : List Nat} {r : SpecialPolynomial}
    (h : setPjE n indices = some r) : setPj n indices = r := by
  unfold setPjE at h
  unfold setPj
  split at h
  case isFalse => cases h
  case isTrue hg =>
    simp only [Option.bind_eq_bind, Option.bind_eq_some] at h
    obtain ⟨p1, hp1, p2, hp2, hp3⟩ := h
    show List.foldl (fun p j => setTerm p j 4)
      (List.foldl (fun p j => setTerm p j 6)
        (List.foldl (fun p j => setTerm p [j] 1) (zeroPoly n)
          (List.foldl (fun acc x => insertSorted x acc) [] indices))
        (combos2 (List.foldl (fun acc x => insertSorted x acc) [] indices)))
      (combos3 (List.foldl (fun acc x => insertSorted x acc) [] indices)) = r
    rw [foldlM_some _ (fun p j => setTerm p [j] 1)
        (fun a x c hx => setTermE_some hx) _ _ _ hp1,
      foldlM_some _ (fun p j => setTerm p j 6)
        (fun a x c hx => setTermE_some hx) _ _ _ hp2]
    exact foldlM_some _ (fun p j => setTerm p j 4)
      (fun a x c hx => setTermE_some hx) _ _ _ hp3

theorem mulSubstVarE_some {other : CNOTDihedral} {i : Nat} {r : SpecialPolynomial}
    (h : mulSubstVarE other i = some r) : mulSubstVar other i = r := by
  unfold mulSubstVarE at h
  unfold mulSubstVar
  simp only [Option.bind_eq_bind, Option.bind_eq_some] at h
  obtain ⟨poly, hpoly, hrest⟩ := h
  show (if other.shift.getD i 0 = 1 then
      { scalarMul (-1) (setPj other.num_qubits (supportOf (other.linear.getD i []))) with
        weight_0 := Int.emod ((scalarMul (-1)
          (setPj other.num_qubits (supportOf (other.linear.getD i [])))).weight_0 + 1) 8 }
    else setPj other.num_qubits (supportOf (other.linear.getD i []))) = r
  rw [setPjE_some hpoly]
  by_cases hs : other.shift.getD i 0 = 1
  · rw [if_pos hs] at hrest ⊢
    injection hrest
  · rw [if_neg hs] at hrest ⊢
    injection hrest

theorem mulCDE_some {a b r : CNOTDihedral} (h : mulCDE a b = some r) :
    a.num_qubits = b.num_qubits ∧ r = mulCD a b := by
  unfold mulCDE at h
  split at h
  case isFalse => cases h
  case isTrue hq =>
    refine ⟨hq, ?_⟩
    simp only [Option.bind_eq_bind, Option.bind_eq_some, Option.pure_def,
      Option.some.injEq] at h
    obtain ⟨nv, hnv, ev, hev, hr⟩ := h
    have hnv' : nv = (List.range a.num_qubits).map (mulSubstVar b) := by
      rw [← foldlM_some _ (fun acc i => acc ++ [mulSubstVar b i]) ?_ _ _ _ hnv]
      · rw [foldl_append_map]
        rfl
      · intro acc i c hf
        simp only [Option.bind_eq_bind, Option.bind_eq_some, Option.pure_def,
          Option.some.injEq] at hf
        obtain ⟨poly, hpoly, hc⟩ := hf
        show acc ++ [mulSubstVar b i] = c
        rw [mulSubstVarE_some hpoly]
        exact hc
    have hev' : ev = evalPoly a.poly ((List.range a.num_qubits).map (mulSubstVar b)) := by
      rw [← hnv']
      exact (evalPolyE_some hev).symm
    rw [hev'] at hr
    rw [← hr]
    rfl

/-- Composition is not total: on 4 qubits, multiplying `a = T_0` by the
identity aborts — `evaluate` reaches `mul_monomial([0])`, whose term loop
feeds the four-index union `[0,1,2,3]` to `get_term`, raising
`AssertionError` (`no term!`) — so `a * b` never returns here. -/
theorem mulCDE_abort_4q :
    mulCDE (phase (identityElem 4) 1 0) (identityElem 4) = none := by decide

/-- C2 (amended): composition is fallible — `a * b` raises
`AssertionError` (`no term!`) whenever the internal
`evaluate -> mul_monomial` chain feeds a union of four or more indices to
`get_term`, which happens for `num_qubits >= 4` as soon as `a.poly` has a
nonzero non-constant term (see `mulCDE_abort_4q`).  When `a * b` does
return (`mulCDE a b = some r`), the result has `linear` the Z2 matrix
product `a.linear * b.linear`, `shift = (a.linear * b.shift) xor a.shift`,
and `poly = b.poly + a.poly` evaluated at the substituted variables, where
the variable for row `i` is built from the support of row `i` of
`b.linear` (not `a.linear` as the claim stated), negated with constant
term incremented when `b.shift[i] == 1` (see `mulSubstVar`). -/
theorem C2_compose_spec (a b r : CNOTDihedral) (hab : a.num_qubits = b.num_qubits)
    (ha : CDWF a) (hb : CDWF b) (hok : mulCDE a b = some r) :
    (∀ i j, i < a.num_qubits → j < a.num_qubits →
      (r.linear.getD i []).getD j 0 =
        ((List.range a.num_qubits).map
          (fun k => (a.linear.getD i []).getD k 0 * (b.linear.getD k []).getD j 0)).sum % 2) ∧
    (∀ i, i < a.num_qubits →
      r.shift.getD i 0 =
        (((List.range a.num_qubits).map
          (fun k => (a.linear.getD i []).getD k 0 * b.shift.getD k 0)).sum +
          a.shift.getD i 0) % 2) ∧
    r.poly = polyAdd b.poly
      (evalPoly a.poly ((List.range a.num_qubits).map (mulSubstVar b))) := by
  obtain ⟨-, hr⟩ := mulCDE_some hok
  subst hr
  refine ⟨?_, ?_, rfl⟩
  · intro i j hi hj
    exact z2matmul_entry a.num_qubits a.linear b.linear hi hj
  · intro i hi
    have hsl : a.shift.length = a.num_qubits := ha.2.2.2.2
    have hzl : (z2matvecmul a.num_qubits a.linear b.shift).length = a.num_qubits := by
      simp [z2matvecmul]
    have step : (mulCD a b).shift.getD i 0 =
        Int.emod ((z2matvecmul a.num_qubits a.linear b.shift).getD i 0 + a.shift.getD i 0) 2 :=
      getD_map_zip (fun x y => Int.emod (x + y) 2) _ _ i (by omega) (by omega)
    rw [step, z2matvecmul_entry a.num_qubits a.linear b.shift hi]
    simp only [emod_eq]
    omega

/-- C2 witness: the composition law at `a = T_0`, `b = CNOT_{1,0}` on two
qubits, a pair on which the product returns. -/
theorem C2_compose_spec_witness :
    (∀ i j, i < ceA.num_qubits → j < ceA.num_qubits →
      ((mulCD ceA ceB).linear.getD i []).getD j 0 =
        ((List.range ceA.num_qubits).map
          (fun k => (ceA.linear.getD i []).getD k 0 * (ceB.linear.getD k []).getD j 0)).sum % 2) ∧
    (∀ i, i < ceA.num_qubits →
      (mulCD ceA ceB).shift.getD i 0 =
        (((List.range ceA.num_qubits).map
          (fun k => (ceA.linear.getD i []).getD k 0 * ceB.shift.getD k 0)).sum +
          ceA.shift.getD i 0) % 2) ∧
    (mulCD ceA ceB).poly =
      polyAdd ceB.poly (evalPoly ceA.poly
        ((List.range ceA.num_qubits).map (mulSubstVar ceB))) :=
  C2_compose_spec ceA ceB (mulCD ceA ceB) rfl (by decide) (by decide) (by decide)

theorem intCast_emod_two (a : Int) : ((Int.emod a 2 : Int) : ZMod 2) = (a : ZMod 2) := by
  have h2 : (2 : ZMod 2) = 0 := by decide
  rw [emod_eq, Int.emod_def]
  push_cast
  rw [h2]
  ring

theorem toMat_identity (n : Nat) : toMat n (identityElem n).linear = 1 := by
  funext i j
  show (((((List.range n).map (fun r => (List.range n).map
    (fun c => if r = c then (1:Int) else 0))).getD i []).getD j 0 : Int) : ZMod 2) = _
  rw [getD_map_range _ _ i.isLt, getD_map_range _ _ j.isLt]
  by_cases h : (i : Nat) = (j : Nat)
  · simp [h, Matrix.one_apply, Fin.ext h]
  · rw [if_neg h, Matrix.one_apply, if_neg (fun hh : i = j => h (congrArg Fin.val hh))]
    simp

theorem phase_linear (e : CNOTDihedral) (k : Int) (i : Nat) : (phase e k i).linear = e.linear := rfl
theorem flip_linear (e : CNOTDihedral) (i : Nat) : (flip e i).linear = e.linear := rfl

theorem listSum_eq (g : Nat → ZMod 2) (n : Nat) :
    ((List.range n).map g).sum = ∑ k ∈ Finset.range n, g k := by
  induction n with
  | zero => simp
  | succ m ih => rw [List.range_succ, List.map_append, List.sum_append, Finset.sum_range_succ, ih]; simp

theorem toMat_z2matmul (n : Nat) (A B : List (List Int)) :
    toMat n (z2matmul n A B) = toMat n A * toMat n B := by
  funext i j
  show (((((z2matmul n A B).getD i []).getD j 0 : Int)) : ZMod 2) = _
  rw [z2matmul_entry n A B i.isLt j.isLt, ← emod_eq, intCast_emod_two]
  rw [show ((((List.range n).map
    (fun k => (A.getD i []).getD k 0 * (B.getD k []).getD j 0)).sum : Int) : ZMod 2) =
    ((List.range n).map
      (fun k => (((A.getD i []).getD k 0 : Int) : ZMod 2) * (((B.getD k []).getD j 0 : Int) : ZMod 2))).sum
    from by rw [Int.cast_list_sum, List.map_map]; exact congrArg List.sum (List.map_congr_left (fun k _ => by simp))]
  rw [listSum_eq, Matrix.mul_apply, ← Fin.sum_univ_eq_sum_range]
  rfl

theorem getD_set_self {α : Type} {l : List α} {j : Nat} {x d : α} (h : j < l.length) :
    (l.set j x).getD j d = x := by
  rw [List.getD_eq_getElem _ _ (by simpa using h)]
  exact List.getElem_set_self _

theorem toMat_cnot {e : CNOTDihedral} (hlen : e.linear.length = e.num_qubits)
    {i j : Nat} (hi : i < e.num_qubits) (hj : j < e.num_qubits) :
    toMat e.num_qubits (cnot e i j).linear =
      (toMat e.num_qubits e.linear).updateRow ⟨j, hj⟩
        ((toMat e.num_qubits e.linear) ⟨j, hj⟩ + (toMat e.num_qubits e.linear) ⟨i, hi⟩) := by
  funext r c
  show ((((e.linear.set j ((List.range e.num_qubits).map
      (fun k => Int.emod ((e.linear.getD i []).getD k 0 + (e.linear.getD j []).getD k 0) 2))).getD
      r []).getD c 0 : Int) : ZMod 2) = _
  by_cases hr : (r : Nat) = j
  · rw [show r = (⟨j, hj⟩ : Fin e.num_qubits) from Fin.ext hr]
    rw [getD_set_self (by omega), getD_map_range _ _ c.isLt, Matrix.updateRow_self,
      intCast_emod_two]
    push_cast
    show _ = toMat e.num_qubits e.linear ⟨j, hj⟩ c + toMat e.num_qubits e.linear ⟨i, hi⟩ c
    show ((((e.linear.getD i []).getD c 0 : Int) : ZMod 2) +
      (((e.linear.getD j []).getD c 0 : Int) : ZMod 2)) = _
    rw [add_comm]
    rfl
  · rw [getD_set_ne hr, Matrix.updateRow_ne (fun hh : r = ⟨j, hj⟩ => hr (congrArg Fin.val hh))]
    rfl

theorem lininv_cnot {e : CNOTDihedral} (hwf : CDWF e) {i j : Nat}
    (hi : i < e.num_qubits) (hj : j < e.num_qubits) (hij : i ≠ j)
    (h : LinInvertible e) : LinInvertible (cnot e i j) := by
  show IsUnit (toMat (cnot e i j).num_qubits (cnot e i j).linear).det
  have hnum : (cnot e i j).num_qubits = e.num_qubits := rfl
  rw [show toMat (cnot e i j).num_qubits (cnot e i j).linear =
    toMat e.num_qubits (cnot e i j).linear from rfl]
  rw [toMat_cnot hwf.2.2.1 hi hj]
  have hne : (⟨j, hj⟩ : Fin e.num_qubits) ≠ ⟨i, hi⟩ :=
    fun hh => hij (congrArg Fin.val hh).symm
  have hdet := Matrix.det_updateRow_add_smul_self (toMat e.num_qubits e.linear) hne (1 : ZMod 2)
  rw [one_smul] at hdet
  exact hdet.symm ▸ h

theorem lininv_mul {a b : CNOTDihedral} (hab : a.num_qubits = b.num_qubits)
    (ha : LinInvertible a) (hb : LinInvertible b) : LinInvertible (mulCD a b) := by
  show IsUnit (toMat a.num_qubits (z2matmul a.num_qubits a.linear b.linear)).det
  rw [toMat_z2matmul, Matrix.det_mul]
  have hb' : IsUnit (toMat b.num_qubits b.linear).det := hb
  exact ha.mul (by rw [hab]; exact hb')

theorem lininv_rmul {a b : CNOTDihedral} (hab : a.num_qubits = b.num_qubits)
    (ha : LinInvertible a) (hb : LinInvertible b) : LinInvertible (rmulCD a b) := by
  show IsUnit (toMat a.num_qubits (z2matmul a.num_qubits b.linear a.linear)).det
  rw [toMat_z2matmul, Matrix.det_mul]
  have hb' : IsUnit (toMat b.num_qubits b.linear).det := hb
  exact IsUnit.mul (by rw [hab]; exact hb') ha

theorem C6_linear_invertible :
    (∀ n, toMat n (identityElem n).linear = 1 ∧ LinInvertible (identityElem n)) ∧
    (∀ e (i j : Nat), CDWF e → i < e.num_qubits → j < e.num_qubits → i ≠ j →
      LinInvertible e → LinInvertible (cnot e i j)) ∧
    (∀ e (k : Int) (i : Nat), LinInvertible e → LinInvertible (phase e k i)) ∧
    (∀ e (i : Nat), LinInvertible e → LinInvertible (flip e i)) ∧
    (∀ a b, a.num_qubits = b.num_qubits → LinInvertible a → LinInvertible b →
      LinInvertible (mulCD a b) ∧ LinInvertible (rmulCD a b)) := by
  refine ⟨fun n => ⟨toMat_identity n, ?_⟩,
    fun e i j hwf hi hj hij h => lininv_cnot hwf hi hj hij h,
    fun e k i h => h, fun e i h => h,
    fun a b hab ha hb => ⟨lininv_mul hab ha hb, lininv_rmul hab ha hb⟩⟩
  show IsUnit (toMat n (identityElem n).linear).det
  rw [toMat_identity, Matrix.det_one]
  exact isUnit_one

/-- C6 witness: the identity's linear part is `I` and stays invertible
under a `cnot`. -/
theorem C6_linear_invertible_witness : LinInvertible (cnot (identityElem 2) 0 1) :=
  C6_linear_invertible.2.1 (identityElem 2) 0 1 (by decide) (by decide) (by decide)
    (by decide) ((C6_linear_invertible.1 2).2)

theorem natChars_lt10 {n : Nat} (h : n < 10) : natChars n = [Nat.digitChar n] := by
  unfold natChars
  by_cases h0 : n = 0
  · subst h0; rfl
  · rw [if_neg h0, Nat.digits_def' (by norm_num) (Nat.pos_of_ne_zero h0),
      Nat.mod_eq_of_lt h, Nat.div_eq_of_lt h, Nat.digits_zero]
    rfl

theorem intChars_single {v : Int} (h0 : 0 ≤ v) (h8 : v < 8) :
    intChars v = [Nat.digitChar v.toNat] := by
  unfold intChars
  rw [if_neg (by omega), natChars_lt10 (by omega)]

theorem digitChar_inj {a b : Nat} (ha : a < 10) (hb : b < 10)
    (h : Nat.digitChar a = Nat.digitChar b) : a = b := by
  interval_cases a <;> interval_cases b <;> first | rfl | exact absurd h (by decide)

theorem intChars_inj {v w : Int} (hv0 : 0 ≤ v) (hv8 : v < 8) (hw0 : 0 ≤ w) (hw8 : w < 8)
    (h : intChars v = intChars w) : v = w := by
  rw [intChars_single hv0 hv8, intChars_single hw0 hw8] at h
  have := digitChar_inj (by omega) (by omega) (List.cons.injEq .. ▸ h).1
  omega

/-- Joined token lists with pairwise equal token lengths are equal. -/
theorem joinCS_inj : ∀ (l1 l2 : List (List Char)),
    List.Forall₂ (fun s t => s.length = t.length) l1 l2 →
    joinCommaSpace l1 = joinCommaSpace l2 → l1 = l2
  | [], [], _, _ => rfl
  | [x], [y], _, hj => by
    rw [show joinCommaSpace [x] = x from rfl, show joinCommaSpace [y] = y from rfl] at hj
    rw [hj]
  | x :: x2 :: xs, y :: y2 :: ys, hf, hj => by
    obtain ⟨hxy, hf2⟩ := List.forall₂_cons.mp hf
    have hj' : x ++ (',' :: ' ' :: joinCommaSpace (x2 :: xs)) =
        y ++ (',' :: ' ' :: joinCommaSpace (y2 :: ys)) := hj
    obtain ⟨hx, htail⟩ := List.append_inj hj' hxy
    have hji : joinCommaSpace (x2 :: xs) = joinCommaSpace (y2 :: ys) := by
      injection htail with h1 htail1
      injection htail1 with h2 htail2
    have hrec := joinCS_inj (x2 :: xs) (y2 :: ys) hf2 hji
    rw [hx, hrec]
  | [], _ :: _, hf, _ => by cases hf
  | _ :: _, [], hf, _ => by cases hf
  | [_], _ :: _ :: _, hf, _ => by
    obtain ⟨_, hf2⟩ := List.forall₂_cons.mp hf
    cases hf2
  | _ :: _ :: _, [_], hf, _ => by
    obtain ⟨_, hf2⟩ := List.forall₂_cons.mp hf
    cases hf2

theorem joinCS_length : ∀ {l1 l2 : List (List Char)},
    List.Forall₂ (fun s t => s.length = t.length) l1 l2 →
    (joinCommaSpace l1).length = (joinCommaSpace l2).length := by
  intro l1 l2 hf
  induction hf with
  | nil => rfl
  | @cons x y xs ys hxy hrest ih =>
    cases hrest with
    | nil => exact hxy
    | cons h2 h3 =>
      simp only [joinCommaSpace, List.length_append, List.length_cons]
      omega

/-- Python tuple renderings of token lists with pairwise equal token
lengths are equal only if the token lists are. -/
theorem pyTupleChars_inj : ∀ (l1 l2 : List (List Char)),
    List.Forall₂ (fun s t => s.length = t.length) l1 l2 →
    pyTupleChars l1 = pyTupleChars l2 → l1 = l2
  | [], [], _, _ => rfl
  | [x], [y], hf, hj => by
    obtain ⟨hxy, -⟩ := List.forall₂_cons.mp hf
    have hj' : x ++ [',', ')'] = y ++ [',', ')'] := by
      injection hj
    obtain ⟨hx, -⟩ := List.append_inj hj' hxy
    rw [hx]
  | x :: x2 :: xs, y :: y2 :: ys, hf, hj => by
    have hj' : joinCommaSpace (x :: x2 :: xs) ++ [')'] =
        joinCommaSpace (y :: y2 :: ys) ++ [')'] := by
      injection hj
    obtain ⟨hjoin, -⟩ := List.append_inj hj' (joinCS_length hf)
    exact joinCS_inj _ _ hf hjoin
  | [], _ :: _, hf, _ => by cases hf
  | _ :: _, [], hf, _ => by cases hf
  | [_], _ :: _ :: _, hf, _ => by
    obtain ⟨-, hf2⟩ := List.forall₂_cons.mp hf
    cases hf2
  | _ :: _ :: _, [_], hf, _ => by
    obtain ⟨-, hf2⟩ := List.forall₂_cons.mp hf
    cases hf2

theorem forall₂_intChars : ∀ (l1 l2 : List Int), (∀ x ∈ l1, 0 ≤ x ∧ x < 8) →
    (∀ x ∈ l2, 0 ≤ x ∧ x < 8) → l1.length = l2.length →
    List.Forall₂ (fun s t => s.length = t.length) (l1.map intChars) (l2.map intChars)
  | [], [], _, _, _ => List.Forall₂.nil
  | x :: xs, y :: ys, h1, h2, hl => by
    refine List.Forall₂.cons ?_ (forall₂_intChars xs ys
      (fun z hz => h1 z (List.mem_cons_of_mem _ hz))
      (fun z hz => h2 z (List.mem_cons_of_mem _ hz)) (by simpa using hl))
    obtain ⟨hx0, hx8⟩ := h1 x (List.mem_cons_self _ _)
    obtain ⟨hy0, hy8⟩ := h2 y (List.mem_cons_self _ _)
    rw [intChars_single hx0 hx8, intChars_single hy0 hy8]
    rfl
  | [], _ :: _, _, _, hl => by simp at hl
  | _ :: _, [], _, _, hl => by simp at hl

theorem map_intChars_inj : ∀ (l1 l2 : List Int), (∀ x ∈ l1, 0 ≤ x ∧ x < 8) →
    (∀ x ∈ l2, 0 ≤ x ∧ x < 8) → l1.map intChars = l2.map intChars → l1 = l2
  | [], [], _, _, _ => rfl
  | x :: xs, y :: ys, h1, h2, hm => by
    simp only [List.map_cons, List.cons.injEq] at hm
    obtain ⟨hx0, hx8⟩ := h1 x (List.mem_cons_self _ _)
    obtain ⟨hy0, hy8⟩ := h2 y (List.mem_cons_self _ _)
    rw [intChars_inj hx0 hx8 hy0 hy8 hm.1,
      map_intChars_inj xs ys (fun z hz => h1 z (List.mem_cons_of_mem _ hz))
        (fun z hz => h2 z (List.mem_cons_of_mem _ hz)) hm.2]
  | [], _ :: _, _, _, hm => by simp at hm
  | _ :: _, [], _, _, hm => by simp at hm

theorem renderIntList_inj (l1 l2 : List Int) (h1 : ∀ x ∈ l1, 0 ≤ x ∧ x < 8)
    (h2 : ∀ x ∈ l2, 0 ≤ x ∧ x < 8) (hl : l1.length = l2.length)
    (h : renderIntList l1 = renderIntList l2) : l1 = l2 :=
  map_intChars_inj l1 l2 h1 h2 (pyTupleChars_inj _ _ (forall₂_intChars l1 l2 h1 h2 hl) h)

theorem pyTupleChars_length_eq : ∀ {l1 l2 : List (List Char)},
    List.Forall₂ (fun s t => s.length = t.length) l1 l2 →
    (pyTupleChars l1).length = (pyTupleChars l2).length
  | [], [], _ => rfl
  | [x], [y], hf => by
    obtain ⟨hxy, -⟩ := List.forall₂_cons.mp hf
    simp [pyTupleChars, hxy]
  | _ :: _ :: _, _ :: _ :: _, hf => by
    simp only [pyTupleChars, List.length_cons, List.length_append]
    rw [joinCS_length hf]
  | [], _ :: _, hf => by cases hf
  | _ :: _, [], hf => by cases hf
  | [_], _ :: _ :: _, hf => by
    obtain ⟨-, hf2⟩ := List.forall₂_cons.mp hf
    cases hf2
  | _ :: _ :: _, [_], hf => by
    obtain ⟨-, hf2⟩ := List.forall₂_cons.mp hf
    cases hf2

theorem renderIntList_length_eq (l1 l2 : List Int) (h1 : ∀ x ∈ l1, 0 ≤ x ∧ x < 8)
    (h2 : ∀ x ∈ l2, 0 ≤ x ∧ x < 8) (hl : l1.length = l2.length) :
    (renderIntList l1).length = (renderIntList l2).length :=
  pyTupleChars_length_eq (forall₂_intChars l1 l2 h1 h2 hl)

theorem forall₂_rows : ∀ (r1 r2 : List (List Int)) (n : Nat),
    (∀ row ∈ r1, ∀ x ∈ row, 0 ≤ x ∧ x < 8) → (∀ row ∈ r2, ∀ x ∈ row, 0 ≤ x ∧ x < 8) →
    (∀ row ∈ r1, row.length = n) → (∀ row ∈ r2, row.length = n) → r1.length = r2.length →
    List.Forall₂ (fun s t => s.length = t.length)
      (r1.map renderIntList) (r2.map renderIntList)
  | [], [], _, _, _, _, _, _ => List.Forall₂.nil
  | r :: rs, q :: qs, n, h1, h2, hl1, hl2, hl => by
    refine List.Forall₂.cons ?_ (forall₂_rows rs qs n
      (fun z hz => h1 z (List.mem_cons_of_mem _ hz))
      (fun z hz => h2 z (List.mem_cons_of_mem _ hz))
      (fun z hz => hl1 z (List.mem_cons_of_mem _ hz))
      (fun z hz => hl2 z (List.mem_cons_of_mem _ hz)) (by simpa using hl))
    exact renderIntList_length_eq r q (h1 r (List.mem_cons_self _ _))
      (h2 q (List.mem_cons_self _ _))
      (by rw [hl1 r (List.mem_cons_self _ _), hl2 q (List.mem_cons_self _ _)])
  | [], _ :: _, _, _, _, _, _, hl => by simp at hl
  | _ :: _, [], _, _, _, _, _, hl => by simp at hl

theorem map_renderIntList_inj : ∀ (r1 r2 : List (List Int)) (n : Nat),
    (∀ row ∈ r1, ∀ x ∈ row, 0 ≤ x ∧ x < 8) → (∀ row ∈ r2, ∀ x ∈ row, 0 ≤ x ∧ x < 8) →
    (∀ row ∈ r1, row.length = n) → (∀ row ∈ r2, row.length = n) →
    r1.map renderIntList = r2.map renderIntList → r1 = r2
  | [], [], _, _, _, _, _, _ => rfl
  | r :: rs, q :: qs, n, h1, h2, hl1, hl2, hm => by
    simp only [List.map_cons, List.cons.injEq] at hm
    rw [renderIntList_inj r q (h1 r (List.mem_cons_self _ _)) (h2 q (List.mem_cons_self _ _))
        (by rw [hl1 r (List.mem_cons_self _ _), hl2 q (List.mem_cons_self _ _)]) hm.1,
      map_renderIntList_inj rs qs n (fun z hz => h1 z (List.mem_cons_of_mem _ hz))
        (fun z hz => h2 z (List.mem_cons_of_mem _ hz))
        (fun z hz => hl1 z (List.mem_cons_of_mem _ hz))
        (fun z hz => hl2 z (List.mem_cons_of_mem _ hz)) hm.2]
  | [], _ :: _, _, _, _, _, _, hm => by simp at hm
  | _ :: _, [], _, _, _, _, _, hm => by simp at hm

theorem polyKey_forall₂ (p q : SpecialPolynomial) (hn : p.n_vars = q.n_vars)
    (hp : PolyWF p) (hq : PolyWF q)
    (hbp : (0 ≤ p.weight_0 ∧ p.weight_0 < 8) ∧ (∀ x ∈ p.weight_1, 0 ≤ x ∧ x < 8) ∧
      (∀ x ∈ p.weight_2, 0 ≤ x ∧ x < 8) ∧ (∀ x ∈ p.weight_3, 0 ≤ x ∧ x < 8))
    (hbq : (0 ≤ q.weight_0 ∧ q.weight_0 < 8) ∧ (∀ x ∈ q.weight_1, 0 ≤ x ∧ x < 8) ∧
      (∀ x ∈ q.weight_2, 0 ≤ x ∧ x < 8) ∧ (∀ x ∈ q.weight_3, 0 ≤ x ∧ x < 8)) :
    List.Forall₂ (fun s t => s.length = t.length)
      [intChars p.weight_0, pyTupleChars (p.weight_1.map intChars),
        pyTupleChars (p.weight_2.map intChars), pyTupleChars (p.weight_3.map intChars)]
      [intChars q.weight_0, pyTupleChars (q.weight_1.map intChars),
        pyTupleChars (q.weight_2.map intChars), pyTupleChars (q.weight_3.map intChars)] := by
  refine List.Forall₂.cons ?_ (List.Forall₂.cons ?_ (List.Forall₂.cons ?_
    (List.Forall₂.cons ?_ List.Forall₂.nil)))
  · rw [intChars_single hbp.1.1 hbp.1.2, intChars_single hbq.1.1 hbq.1.2]
    rfl
  · exact renderIntList_length_eq _ _ hbp.2.1 hbq.2.1 (by rw [hp.1, hq.1, hn])
  · exact renderIntList_length_eq _ _ hbp.2.2.1 hbq.2.2.1 (by rw [hp.2.1, hq.2.1, hn])
  · exact renderIntList_length_eq _ _ hbp.2.2.2 hbq.2.2.2 (by rw [hp.2.2, hq.2.2, hn])

theorem polyKey_inj (p q : SpecialPolynomial) (hn : p.n_vars = q.n_vars)
    (hp : PolyWF p) (hq : PolyWF q)
    (hbp : (0 ≤ p.weight_0 ∧ p.weight_0 < 8) ∧ (∀ x ∈ p.weight_1, 0 ≤ x ∧ x < 8) ∧
      (∀ x ∈ p.weight_2, 0 ≤ x ∧ x < 8) ∧ (∀ x ∈ p.weight_3, 0 ≤ x ∧ x < 8))
    (hbq : (0 ≤ q.weight_0 ∧ q.weight_0 < 8) ∧ (∀ x ∈ q.weight_1, 0 ≤ x ∧ x < 8) ∧
      (∀ x ∈ q.weight_2, 0 ≤ x ∧ x < 8) ∧ (∀ x ∈ q.weight_3, 0 ≤ x ∧ x < 8))
    (h : polyKeyChars p = polyKeyChars q) : p = q := by
  have hitems := pyTupleChars_inj _ _ (polyKey_forall₂ p q hn hp hq hbp hbq) h
  injection hitems with h0 hr1
  injection hr1 with h1 hr2
  injection hr2 with h2 hr3
  injection hr3 with h3 hr4
  obtain ⟨pn, pw0, pw1, pw2, pw3⟩ := p
  obtain ⟨qn, qw0, qw1, qw2, qw3⟩ := q
  simp only at hn hp hq hbp hbq h0 h1 h2 h3
  subst hn
  rw [intChars_inj hbp.1.1 hbp.1.2 hbq.1.1 hbq.1.2 h0]
  rw [map_intChars_inj _ _ hbp.2.1 hbq.2.1 (pyTupleChars_inj _ _
    (forall₂_intChars _ _ hbp.2.1 hbq.2.1 (by rw [hp.1, hq.1])) h1)]
  rw [map_intChars_inj _ _ hbp.2.2.1 hbq.2.2.1 (pyTupleChars_inj _ _
    (forall₂_intChars _ _ hbp.2.2.1 hbq.2.2.1 (by rw [hp.2.1, hq.2.1])) h2)]
  rw [map_intChars_inj _ _ hbp.2.2.2 hbq.2.2.2 (pyTupleChars_inj _ _
    (forall₂_intChars _ _ hbp.2.2.2 hbq.2.2.2 (by rw [hp.2.2, hq.2.2])) h3)]

theorem polyKey_length_eq (p q : SpecialPolynomial) (hn : p.n_vars = q.n_vars)
    (hp : PolyWF p) (hq : PolyWF q)
    (hbp : (0 ≤ p.weight_0 ∧ p.weight_0 < 8) ∧ (∀ x ∈ p.weight_1, 0 ≤ x ∧ x < 8) ∧
      (∀ x ∈ p.weight_2, 0 ≤ x ∧ x < 8) ∧ (∀ x ∈ p.weight_3, 0 ≤ x ∧ x < 8))
    (hbq : (0 ≤ q.weight_0 ∧ q.weight_0 < 8) ∧ (∀ x ∈ q.weight_1, 0 ≤ x ∧ x < 8) ∧
      (∀ x ∈ q.weight_2, 0 ≤ x ∧ x < 8) ∧ (∀ x ∈ q.weight_3, 0 ≤ x ∧ x < 8)) :
    (polyKeyChars p).length = (polyKeyChars q).length :=
  pyTupleChars_length_eq (polyKey_forall₂ p q hn hp hq hbp hbq)

/-- Canonical keys are injective on valid same-size states. -/
theorem cdKey_inj (a b : CNOTDihedral) (hn : a.num_qubits = b.num_qubits)
    (ha : CDWF a) (hb : CDWF b) (hba : BoundedCD a) (hbb : BoundedCD b)
    (h : CDkey a = CDkey b) : a = b := by
  have hchars : cdKeyChars a = cdKeyChars b := congrArg String.data h
  have hpa : (0 ≤ a.poly.weight_0 ∧ a.poly.weight_0 < 8) ∧
      (∀ x ∈ a.poly.weight_1, 0 ≤ x ∧ x < 8) ∧ (∀ x ∈ a.poly.weight_2, 0 ≤ x ∧ x < 8) ∧
      (∀ x ∈ a.poly.weight_3, 0 ≤ x ∧ x < 8) := ⟨hba.1, hba.2.1, hba.2.2.1, hba.2.2.2.1⟩
  have hpb : (0 ≤ b.poly.weight_0 ∧ b.poly.weight_0 < 8) ∧
      (∀ x ∈ b.poly.weight_1, 0 ≤ x ∧ x < 8) ∧ (∀ x ∈ b.poly.weight_2, 0 ≤ x ∧ x < 8) ∧
      (∀ x ∈ b.poly.weight_3, 0 ≤ x ∧ x < 8) := ⟨hbb.1, hbb.2.1, hbb.2.2.1, hbb.2.2.2.1⟩
  have hpnab : a.poly.n_vars = b.poly.n_vars := by rw [ha.1, hb.1, hn]
  have hf : List.Forall₂ (fun s t => s.length = t.length)
      [Char.ofNat 39 :: (polyKeyChars a.poly ++ [Char.ofNat 39]),
        pyTupleChars (a.linear.map (fun row => pyTupleChars (row.map intChars))),
        pyTupleChars (a.shift.map intChars)]
      [Char.ofNat 39 :: (polyKeyChars b.poly ++ [Char.ofNat 39]),
        pyTupleChars (b.linear.map (fun row => pyTupleChars (row.map intChars))),
        pyTupleChars (b.shift.map intChars)] := by
    refine List.Forall₂.cons ?_ (List.Forall₂.cons ?_
      (List.Forall₂.cons ?_ List.Forall₂.nil))
    · simp only [List.length_cons, List.length_append]
      rw [polyKey_length_eq a.poly b.poly hpnab ha.2.1 hb.2.1 hpa hpb]
    · exact pyTupleChars_length_eq (forall₂_rows a.linear b.linear a.num_qubits
        hba.2.2.2.2.1 (fun r hr x hx => hbb.2.2.2.2.1 r hr x hx)
        ha.2.2.2.1 (fun r hr => hn ▸ hb.2.2.2.1 r hr)
        (by rw [ha.2.2.1, hb.2.2.1, hn]))
    · exact renderIntList_length_eq a.shift b.shift hba.2.2.2.2.2 hbb.2.2.2.2.2
        (by rw [ha.2.2.2.2, hb.2.2.2.2, hn])
  have hitems := pyTupleChars_inj _ _ hf hchars
  injection hitems with h0 hr1
  injection hr1 with h1 hr2
  injection hr2 with h2 hr3
  injection h0 with h0a h0b
  obtain ⟨hpk, -⟩ := List.append_inj' h0b rfl
  have hpoly : a.poly = b.poly := polyKey_inj a.poly b.poly hpnab ha.2.1 hb.2.1 hpa hpb hpk
  have hrows : a.linear.map renderIntList = b.linear.map renderIntList :=
    pyTupleChars_inj _ _ (forall₂_rows a.linear b.linear a.num_qubits
      hba.2.2.2.2.1 hbb.2.2.2.2.1 ha.2.2.2.1 (fun r hr => hn ▸ hb.2.2.2.1 r hr)
      (by rw [ha.2.2.1, hb.2.2.1, hn])) h1
  have hlin : a.linear = b.linear := map_renderIntList_inj a.linear b.linear a.num_qubits
    hba.2.2.2.2.1 hbb.2.2.2.2.1 ha.2.2.2.1 (fun r hr => hn ▸ hb.2.2.2.1 r hr) hrows
  have hsh : a.shift = b.shift := map_intChars_inj a.shift b.shift
    hba.2.2.2.2.2 hbb.2.2.2.2.2 (pyTupleChars_inj _ _
      (forall₂_intChars _ _ hba.2.2.2.2.2 hbb.2.2.2.2.2
        (by rw [ha.2.2.2.2, hb.2.2.2.2, hn])) h2)
  obtain ⟨an, ap, al, ash⟩ := a
  obtain ⟨bn, bp, bl, bsh⟩ := b
  simp only at hn hpoly hlin hsh
  rw [hn, hpoly, hlin, hsh]

/-- C4: on well-formed bounded states of the same qubit count, the
canonical `key` string is an injective serialization — two elements are
structurally equal if and only if their keys are equal, regardless of how
each element was produced. -/
theorem C4_key_injective (a b : CNOTDihedral) (hn : a.num_qubits = b.num_qubits)
    (ha : CDWF a) (hb : CDWF b) (hba : BoundedCD a) (hbb : BoundedCD b) :
    CDkey a = CDkey b ↔ a = b :=
  ⟨cdKey_inj a b hn ha hb hba hbb, fun h => congrArg CDkey h⟩

theorem C4_key_injective_witness :
    CDkey (identityElem 2) = CDkey (flip (identityElem 2) 0) ↔
    identityElem 2 = flip (identityElem 2) 0 :=
  C4_key_injective (identityElem 2) (flip (identityElem 2) 0) rfl
    (by decide) (by decide) (by decide) (by decide)

theorem range_filter_eq_self : ∀ (N m : Nat),
    (List.range N).filter (fun j => decide (m = j)) = if m < N then [m] else [] := by
  intro N
  induction N with
  | zero => intro m; simp
  | succ K ih =>
    intro m
    rw [List.range_succ, List.filter_append, ih m]
    by_cases h : m < K
    · rw [if_pos h, if_pos (by omega)]
      simp [Nat.ne_of_lt h]
    · by_cases h2 : m = K
      · subst h2
        rw [if_neg h, if_pos (by omega)]
        simp
      · rw [if_neg h, if_neg (by omega)]
        simp [h2]

theorem supportOf_idRow {n m : Nat} (hm : m < n) :
    supportOf ((identityElem n).linear.getD m []) = [m] := by
  show supportOf (((List.range n).map (fun r => (List.range n).map
    (fun c => if r = c then (1 : Int) else 0))).getD m []) = [m]
  rw [getD_map_range _ _ hm]
  unfold supportOf
  rw [List.length_map, List.length_range]
  rw [List.filter_congr (fun j hj => ?_), range_filter_eq_self n m, if_pos hm]
  rw [getD_map_range _ _ (List.mem_range.mp hj)]
  by_cases h : m = j <;> simp [h]

theorem set_map_range {α : Type} (f : Nat → α) (v : α) {n m : Nat} (_hm : m < n) :
    ((List.range n).map f).set m v = (List.range n).map (fun j => if j = m then v else f j) := by
  apply List.ext_getElem
  · simp
  · intro j hj1 hj2
    simp only [List.length_set, List.length_map, List.length_range] at hj1
    rw [List.getElem_set]
    by_cases h : m = j
    · subst h
      rw [if_pos rfl, List.getElem_map, List.getElem_range, if_pos rfl]
    · simp only [if_neg h, List.getElem_map, List.getElem_range]
      rw [if_neg (fun hh => h hh.symm)]

theorem map_range_congr {α : Type} (f g : Nat → α) (n : Nat) (h : ∀ j < n, f j = g j) :
    (List.range n).map f = (List.range n).map g :=
  List.map_congr_left (fun j hj => h j (List.mem_range.mp hj))

theorem elemPartial_zero (n i : Nat) : elemPartial n 0 i = identityElem n := by
  unfold elemPartial identityElem zeroPoly
  congr 1
  · congr 1
    · rw [map_range_congr _ (fun _ => (0 : Int)) n (fun j hj => by simp)]
      rw [List.map_const', List.length_range]
  · rw [map_range_congr _ (fun _ => (0 : Int)) n (fun j hj => by simp)]
    rw [List.map_const', List.length_range]

theorem div_pow_succ (i m : Nat) : i / 16 ^ m / 16 = i / 16 ^ (m + 1) := by
  rw [Nat.div_div_eq_div_mul, ← pow_succ]

theorem w_half_set (n m : Nat) (hm : m < n) (g : Nat → Nat) (v : Int) (hv : (g m : Int) = v) :
    ((List.range n).map (fun j => if j < m then (g j : Int) else 0)).set m v
      = (List.range n).map (fun j => if j < m + 1 then (g j : Int) else 0) := by
  rw [set_map_range _ _ hm]
  apply map_range_congr
  intro j hj
  by_cases h : j = m
  · subst h
    rw [if_pos rfl, if_pos (Nat.lt_succ_self j)]
    exact hv.symm
  · rw [if_neg h]
    by_cases h2 : j < m
    · rw [if_pos h2, if_pos (by omega)]
    · rw [if_neg h2, if_neg (by omega)]

theorem w_half_id (n m : Nat) (g : Nat → Nat) (hg : g m = 0) :
    (List.range n).map (fun j => if j < m then (g j : Int) else 0)
      = (List.range n).map (fun j => if j < m + 1 then (g j : Int) else 0) := by
  apply map_range_congr
  intro j hj
  by_cases h : j = m
  · subst h
    rw [if_neg (lt_irrefl j), if_pos (Nat.lt_succ_self j), hg]
    exact Nat.cast_zero.symm
  · by_cases h2 : j < m
    · rw [if_pos h2, if_pos (by omega)]
    · rw [if_neg h2, if_neg (by omega)]

theorem phase_step (n m i : Nat) (hm : m < n) :
    (if tdig i m > 0 then phase (elemPartial n m i) ((tdig i m : Nat) : Int) m
      else elemPartial n m i) = elemHalf n m i := by
  have h8 : tdig i m < 8 := Nat.mod_lt _ (by norm_num)
  by_cases ht : tdig i m > 0
  · rw [if_pos ht]
    simp only [elemPartial, phase]
    rw [supportOf_idRow hm]
    simp only [getD_map_range (fun j => if j < m then (xdig i j : Int) else 0) 0 hm,
      if_neg (lt_irrefl m), if_neg (show ¬((0 : Int) = 1) by norm_num)]
    simp only [List.foldl_cons, List.foldl_nil, combos2, combos3, List.map_nil,
      List.nil_append]
    simp only [getTerm, setTerm]
    simp only [getD_map_range (fun j => if j < m then (tdig i j : Int) else 0) 0 hm,
      if_neg (lt_irrefl m)]
    have hval : Int.emod (Int.emod (0 + (tdig i m : Int)) 8) 8 = (tdig i m : Int) := by
      simp only [emod_eq]
      omega
    rw [hval, w_half_set n m hm (fun j => tdig i j) _ rfl]
    rfl
  · rw [if_neg ht]
    have h0 : tdig i m = 0 := by omega
    simp only [elemPartial, elemHalf]
    rw [w_half_id n m (fun j => tdig i j) h0]

theorem flip_step (n m i : Nat) (hm : m < n) :
    (if xdig i m = 1 then flip (elemHalf n m i) m else elemHalf n m i)
      = elemPartial n (m + 1) i := by
  have h2 : xdig i m < 2 := Nat.mod_lt _ (by norm_num)
  by_cases hx : xdig i m = 1
  · rw [if_pos hx]
    simp only [elemHalf, flip]
    simp only [getD_map_range (fun j => if j < m then (xdig i j : Int) else 0) 0 hm,
      if_neg (lt_irrefl m)]
    rw [show Int.emod ((0 : Int) + 1) 2 = ((xdig i m : Nat) : Int) by rw [hx]; rfl]
    rw [w_half_set n m hm (fun j => xdig i j) _ rfl]
    rfl
  · rw [if_neg hx]
    have h0 : xdig i m = 0 := by omega
    simp only [elemHalf, elemPartial]
    rw [w_half_id n m (fun j => xdig i j) h0]

theorem elemOf_fold (n i : Nat) : ∀ m, m ≤ n →
    (List.range m).foldl
      (fun (st : CNOTDihedral × Nat) j =>
        let e := st.1
        let num := st.2
        let xpower := num % 2
        let tpower := num / 2 % 8
        let e := if tpower > 0 then phase e (tpower : Int) j else e
        let e := if xpower = 1 then flip e j else e
        (e, num / 16))
      (identityElem n, i) = (elemPartial n m i, i / 16 ^ m)
  | 0, _ => by simp [elemPartial_zero]
  | m + 1, h => by
    rw [List.range_succ, List.foldl_append, elemOf_fold n i m (Nat.le_of_succ_le h)]
    show ((if xdig i m = 1 then
        flip (if tdig i m > 0 then phase (elemPartial n m i) ((tdig i m : Nat) : Int) m
          else elemPartial n m i) m
        else (if tdig i m > 0 then phase (elemPartial n m i) ((tdig i m : Nat) : Int) m
          else elemPartial n m i)),
      i / 16 ^ m / 16) = (elemPartial n (m + 1) i, i / 16 ^ (m + 1))
    rw [phase_step n m i (by omega), flip_step n m i (by omega), div_pow_succ]

theorem elemOf_eq (n i : Nat) : elemOf n i = elemPartial n n i := by
  unfold elemOf
  rw [elemOf_fold n i n (le_refl n)]

theorem digits_inj : ∀ (n i i' : Nat), i < 16 ^ n → i' < 16 ^ n →
    (∀ j, j < n → i / 16 ^ j % 16 = i' / 16 ^ j % 16) → i = i'
  | 0, i, i', hi, hi', _ => by
    simp only [pow_zero] at hi hi'
    omega
  | n + 1, i, i', hi, hi', h => by
    have h0 := h 0 (Nat.succ_pos n)
    simp only [pow_zero, Nat.div_one] at h0
    have hi16 : i < 16 * 16 ^ n := by rw [← pow_succ']; exact hi
    have hi16' : i' < 16 * 16 ^ n := by rw [← pow_succ']; exact hi'
    have hd : i / 16 = i' / 16 := by
      apply digits_inj n (i / 16) (i' / 16) (by omega) (by omega)
      intro j hj
      rw [Nat.div_div_eq_div_mul, Nat.div_div_eq_div_mul, ← pow_succ']
      exact h (j + 1) (by omega)
    omega

theorem dig_eq (i j : Nat) : i / 16 ^ j % 16 = 2 * tdig i j + xdig i j := by
  unfold tdig xdig
  omega

theorem elemPartial_inj {n i i' : Nat} (hi : i < 16 ^ n) (hi' : i' < 16 ^ n)
    (h : elemPartial n n i = elemPartial n n i') : i = i' := by
  apply digits_inj n i i' hi hi'
  intro j hj
  have hw : ((List.range n).map (fun j => if j < n then (tdig i j : Int) else 0)).getD j 0
      = ((List.range n).map (fun j => if j < n then (tdig i' j : Int) else 0)).getD j 0 :=
    congrArg (fun e => e.poly.weight_1.getD j 0) h
  have hs : ((List.range n).map (fun j => if j < n then (xdig i j : Int) else 0)).getD j 0
      = ((List.range n).map (fun j => if j < n then (xdig i' j : Int) else 0)).getD j 0 :=
    congrArg (fun e => e.shift.getD j 0) h
  rw [getD_map_range _ _ hj, getD_map_range _ _ hj, if_pos hj, if_pos hj] at hw hs
  have ht : tdig i j = tdig i' j := by exact_mod_cast hw
  have hx : xdig i j = xdig i' j := by exact_mod_cast hs
  rw [dig_eq, dig_eq, ht, hx]

theorem elemPartial_wf (n i : Nat) : CDWF (elemPartial n n i) := by
  refine ⟨rfl, ⟨by simp [elemPartial], by simp [elemPartial], by simp [elemPartial]⟩,
    by simp [elemPartial, identityElem], ?_, by simp [elemPartial]⟩
  intro row hrow
  simp only [elemPartial, identityElem] at hrow
  obtain ⟨r, hr, rfl⟩ := List.mem_map.mp hrow
  simp [elemPartial]

theorem elemPartial_bounded (n i : Nat) : BoundedCD (elemPartial n n i) := by
  refine ⟨⟨le_refl 0, show (0 : Int) < 8 by norm_num⟩, ?_, ?_, ?_, ?_, ?_⟩
  · intro x hx
    simp only [elemPartial] at hx
    obtain ⟨j, hj, rfl⟩ := List.mem_map.mp hx
    have h8 : tdig i j < 8 := Nat.mod_lt _ (by norm_num)
    by_cases hcond : j < n
    · rw [if_pos hcond]
      exact ⟨Int.natCast_nonneg _, by exact_mod_cast h8⟩
    · rw [if_neg hcond]
      exact ⟨le_refl 0, by norm_num⟩
  · intro x hx
    simp only [elemPartial] at hx
    rw [List.eq_of_mem_replicate hx]
    norm_num
  · intro x hx
    simp only [elemPartial] at hx
    rw [List.eq_of_mem_replicate hx]
    norm_num
  · intro row hrow x hx
    simp only [elemPartial, identityElem] at hrow
    obtain ⟨r, hr, rfl⟩ := List.mem_map.mp hrow
    obtain ⟨c, hc, rfl⟩ := List.mem_map.mp hx
    by_cases h : r = c
    · rw [if_pos h]
      norm_num
    · rw [if_neg h]
      norm_num
  · intro x hx
    simp only [elemPartial] at hx
    obtain ⟨j, hj, rfl⟩ := List.mem_map.mp hx
    have h2 : xdig i j < 2 := Nat.mod_lt _ (by norm_num)
    by_cases hcond : j < n
    · rw [if_pos hcond]
      exact ⟨Int.natCast_nonneg _, by exact_mod_cast Nat.lt_of_lt_of_le h2 (by norm_num)⟩
    · rw [if_neg hcond]
      exact ⟨le_refl 0, by norm_num⟩

/-- C7: for every `n >= 1`, `make_dict_0(n)` builds a dictionary with
exactly `16^n` entries — the canonical keys of the `16^n` zero-CNOT
elements are pairwise distinct, so no insertion overwrites another. -/
theorem C7_dict0_size (n : Nat) (hn : 1 ≤ n) : dict0Size n = 16 ^ n := by
  have hnd : (dict0Keys n).Nodup := by
    unfold dict0Keys
    refine List.Nodup.map_on ?_ (List.nodup_range _)
    intro x hx y hy hkey
    rw [List.mem_range] at hx hy
    have hkey' : CDkey (elemOf n x) = CDkey (elemOf n y) := hkey
    rw [elemOf_eq, elemOf_eq] at hkey'
    have hex : elemPartial n n x = elemPartial n n y :=
      cdKey_inj _ _ rfl (elemPartial_wf n x) (elemPartial_wf n y)
        (elemPartial_bounded n x) (elemPartial_bounded n y) hkey'
    exact elemPartial_inj hx hy hex
  unfold dict0Size
  rw [List.dedup_eq_self.mpr hnd]
  unfold dict0Keys
  rw [List.length_map, List.length_range]

theorem C7_dict0_size_witness : 1 ≤ 1 ∧ dict0Size 1 = 16 ^ 1 :=
  ⟨by norm_num, C7_dict0_size 1 (by norm_num)⟩

end Dihedral
